import Mathlib

/-!
# RealtimeTaskScheduler: a shallow embedding of `scheduler.cpp`

The C++ `int` fields are modelled by `Int`.  Signed overflow is undefined
behaviour in C++, so the model describes the runs in which every intermediate
value stays inside the `int` range.

`std::sort` is library code: it is taken as a parameter `sort` together with the
guarantee the C++ standard gives for it (`StdSort`): the result is a permutation
of the input and is ordered with respect to the comparator.  The standard does
not promise anything about the relative order of equivalent elements.  What one
implementation does with equivalent elements is computed with `stdSortGcc`, the
introsort of libstdc++ (GCC 12, `bits/stl_algo.h`).
-/

namespace Scheduler

/-- The `Task` record of `scheduler.cpp` (lines 15-24). -/
structure Task where
  id : Int
  arrivalTime : Int
  burstTime : Int
  priority : Int
  startTime : Int := -1
  finishTime : Int := -1
  deriving DecidableEq, Repr

/-- One line printed by the FCFS / SJF walk: `Task id started at s and finished at f`. -/
structure Row where
  id : Int
  start : Int
  finish : Int
  deriving DecidableEq, Repr

/-- A comparator in the sense of `std::sort`: a strict weak ordering. -/
structure StrictWeakOrder (comp : Task → Task → Bool) : Prop where
  irrefl : ∀ a, comp a a = false
  trans : ∀ a b c, comp a b = true → comp b c = true → comp a c = true
  negTrans : ∀ a b c, comp a b = false → comp b c = false → comp a c = false

/-- The guarantee of `std::sort(first, last, comp)`: the range afterwards is a
permutation of the range before and no later element is `comp`-smaller than an
earlier one. -/
def StdSort (sort : (Task → Task → Bool) → List Task → List Task) : Prop :=
  ∀ comp, StrictWeakOrder comp → ∀ l,
    (sort comp l).Perm l ∧ (sort comp l).Pairwise (fun a b => comp b a = false)

/-- The lambda `[](Task a, Task b) { return a.arrivalTime < b.arrivalTime; }`. -/
def byArrival (a b : Task) : Bool := decide (a.arrivalTime < b.arrivalTime)

/-- The lambda `[](Task a, Task b) { return a.burstTime < b.burstTime; }`. -/
def byBurst (a b : Task) : Bool := decide (a.burstTime < b.burstTime)

/-- The lambda `[](Task a, Task b) { return a.priority < b.priority; }`. -/
def byPriority (a b : Task) : Bool := decide (a.priority < b.priority)

/-- The `for (auto &task : tasks)` loop shared by `fcfsScheduling` (lines 61-68)
and `sjfScheduling` (lines 77-84), started with clock `currentTime`. -/
def timelineWalk : List Task → Int → List Row
  | [], _ => []
  | task :: rest, currentTime =>
    let currentTime := if currentTime < task.arrivalTime then task.arrivalTime else currentTime
    ⟨task.id, currentTime, currentTime + task.burstTime⟩ ::
      timelineWalk rest (currentTime + task.burstTime)

/-- `fcfsScheduling(vector<Task>& tasks)`: the vector is taken by reference and
sorted in place, so the model returns the caller's vector after the call
together with the printed rows. -/
def fcfsScheduling (sort : (Task → Task → Bool) → List Task → List Task)
    (tasks : List Task) : List Task × List Row :=
  let tasks := sort byArrival tasks
  (tasks, timelineWalk tasks 0)

/-- `sjfScheduling(vector<Task> tasks)`: the vector is taken by value, so only
the printed rows are observable. -/
def sjfScheduling (sort : (Task → Task → Bool) → List Task → List Task)
    (tasks : List Task) : List Row :=
  let tasks := sort byBurst tasks
  timelineWalk tasks 0

/-- A sorting routine that meets `StdSort` and keeps equivalent elements in
their input order (insertion sort, as `std::stable_sort` would behave). -/
def insertionSortBy (comp : Task → Task → Bool) (l : List Task) : List Task :=
  List.insertionSort (fun a b => comp b a = false) l

/-- The stable-sort property of the specification: `out` is a permutation of
`input`, the keys are non-decreasing along `out`, and for every key value the
tasks carrying it appear in `out` in the same order as in `input`. -/
def StableSortedBy (key : Task → Int) (input out : List Task) : Prop :=
  out.Perm input ∧ out.Pairwise (fun a b => key a ≤ key b) ∧
    ∀ k : Int, out.filter (fun t => decide (key t = k)) = input.filter (fun t => decide (key t = k))

/-! ### The `std::sort` of libstdc++ (GCC 12, `bits/stl_algo.h`)

The vector is a list and iterators are positions in it.  Every routine returns
`none` where the library code would leave the range, where a loop bound of the
model is reached, and in the heap-sort fallback of `__introsort_loop`, which is
not modelled. -/

/-- `std::iter_swap(a, b)`. -/
def iterSwap (v : List Task) (a b : Nat) : Option (List Task) :=
  match v[a]?, v[b]? with
  | some x, some y => some ((v.set a y).set b x)
  | _, _ => none

/-- `__move_median_to_first(result, a, b, c, comp)`. -/
def moveMedianToFirst (comp : Task → Task → Bool) (v : List Task) (result a b c : Nat) :
    Option (List Task) :=
  match v[a]?, v[b]?, v[c]? with
  | some x, some y, some z =>
    if comp x y then
      if comp y z then iterSwap v result b
      else if comp x z then iterSwap v result c
      else iterSwap v result a
    else if comp x z then iterSwap v result a
    else if comp y z then iterSwap v result c
    else iterSwap v result b
  | _, _, _ => none

/-- The loop `while (comp(first, pivot)) ++first;` of `__unguarded_partition`. -/
def scanForward (comp : Task → Task → Bool) (v : List Task) (pivot : Nat) :
    Nat → Nat → Option Nat
  | 0, _ => none
  | fuel + 1, first =>
    match v[first]?, v[pivot]? with
    | some x, some p =>
      if comp x p then scanForward comp v pivot fuel (first + 1) else some first
    | _, _ => none

/-- The loop `while (comp(pivot, last)) --last;` of `__unguarded_partition`. -/
def scanBackward (comp : Task → Task → Bool) (v : List Task) (pivot : Nat) :
    Nat → Nat → Option Nat
  | 0, _ => none
  | fuel + 1, last =>
    match v[pivot]?, v[last]? with
    | some p, some x =>
      if comp p x then
        match last with
        | 0 => none
        | last + 1 => scanBackward comp v pivot fuel last
      else some last
    | _, _ => none

/-- `__unguarded_partition(first, last, pivot, comp)`: the cut position and the
vector afterwards. -/
def unguardedPartition (comp : Task → Task → Bool) (pivot : Nat) :
    Nat → List Task → Nat → Nat → Option (Nat × List Task)
  | 0, _, _, _ => none
  | fuel + 1, v, first, last =>
    match scanForward comp v pivot (v.length + 1) first with
    | none => none
    | some first =>
      match last with
      | 0 => none
      | last + 1 =>
        match scanBackward comp v pivot (v.length + 1) last with
        | none => none
        | some last =>
          if first < last then
            match iterSwap v first last with
            | none => none
            | some v => unguardedPartition comp pivot fuel v (first + 1) last
          else some (first, v)

/-- `__unguarded_partition_pivot(first, last, comp)`. -/
def unguardedPartitionPivot (comp : Task → Task → Bool) (v : List Task) (first last : Nat) :
    Option (Nat × List Task) :=
  let mid := first + (last - first) / 2
  match moveMedianToFirst comp v first (first + 1) mid (last - 1) with
  | none => none
  | some v => unguardedPartition comp first (v.length + 1) v (first + 1) last

/-- `__introsort_loop(first, last, depth_limit, comp)` with `_S_threshold = 16`. -/
def introsortLoop (comp : Task → Task → Bool) :
    Nat → List Task → Nat → Nat → Option (List Task)
  | 0, v, first, last => if last - first > 16 then none else some v
  | depthLimit + 1, v, first, last =>
    if last - first > 16 then
      match unguardedPartitionPivot comp v first last with
      | none => none
      | some (cut, v) =>
        match introsortLoop comp depthLimit v cut last with
        | none => none
        | some v => introsortLoop comp depthLimit v first cut
    else some v

/-- The loop of `__unguarded_linear_insert(last, comp)` for the value `val`
taken from position `last`. -/
def unguardedLinearInsertLoop (comp : Task → Task → Bool) (val : Task) :
    Nat → List Task → Nat → Option (List Task)
  | 0, _, _ => none
  | fuel + 1, v, last =>
    match last with
    | 0 => none
    | next + 1 =>
      match v[next]? with
      | none => none
      | some x =>
        if comp val x then unguardedLinearInsertLoop comp val fuel (v.set (next + 1) x) next
        else some (v.set (next + 1) val)

/-- `__unguarded_linear_insert(last, comp)`. -/
def unguardedLinearInsert (comp : Task → Task → Bool) (v : List Task) (last : Nat) :
    Option (List Task) :=
  match v[last]? with
  | none => none
  | some val => unguardedLinearInsertLoop comp val (v.length + 1) v last

/-- The branch of `__insertion_sort` for an element smaller than the first one:
`val = *i; move_backward(first, i, i + 1); *first = val;`. -/
def moveToFirst (v : List Task) (first i : Nat) : Option (List Task) :=
  match v[i]? with
  | none => none
  | some val => some (v.take first ++ val :: (v.drop first).take (i - first) ++ v.drop (i + 1))

/-- The `for` loop of `__insertion_sort(first, last, comp)` from position `i`,
for `count` more positions. -/
def insertionSortLoop (comp : Task → Task → Bool) (first : Nat) :
    Nat → List Task → Nat → Option (List Task)
  | 0, v, _ => some v
  | count + 1, v, i =>
    match v[i]?, v[first]? with
    | some x, some f =>
      match (if comp x f then moveToFirst v first i else unguardedLinearInsert comp v i) with
      | none => none
      | some v => insertionSortLoop comp first count v (i + 1)
    | _, _ => none

/-- `__insertion_sort(first, last, comp)`. -/
def insertionSortRange (comp : Task → Task → Bool) (v : List Task) (first last : Nat) :
    Option (List Task) :=
  if first = last then some v
  else insertionSortLoop comp first (last - (first + 1)) v (first + 1)

/-- `__unguarded_insertion_sort(first, last, comp)`, for `count = last - first`
positions from `i`. -/
def unguardedInsertionSort (comp : Task → Task → Bool) :
    Nat → List Task → Nat → Option (List Task)
  | 0, v, _ => some v
  | count + 1, v, i =>
    match unguardedLinearInsert comp v i with
    | none => none
    | some v => unguardedInsertionSort comp count v (i + 1)

/-- `__final_insertion_sort(first, last, comp)`. -/
def finalInsertionSort (comp : Task → Task → Bool) (v : List Task) (first last : Nat) :
    Option (List Task) :=
  if last - first > 16 then
    match insertionSortRange comp v first (first + 16) with
    | none => none
    | some v => unguardedInsertionSort comp (last - (first + 16)) v (first + 16)
  else insertionSortRange comp v first last

/-- `std::__lg(n)`: the position of the highest set bit of `n`. -/
def lg : Nat → Nat → Nat
  | 0, _ => 0
  | fuel + 1, n => if 2 ≤ n then lg fuel (n / 2) + 1 else 0

/-- `std::__sort(first, last, comp)` on the whole vector. -/
def sortRange (comp : Task → Task → Bool) (v : List Task) : Option (List Task) :=
  if v.length = 0 then some v
  else
    match introsortLoop comp (lg v.length v.length * 2) v 0 v.length with
    | none => none
    | some v => finalInsertionSort comp v 0 v.length

/-- `std::sort` as libstdc++ implements it, as a total function: the vector is
returned as it is where `sortRange` gives no result. -/
def stdSortGcc (comp : Task → Task → Bool) (v : List Task) : List Task :=
  match sortRange comp v with
  | some v => v
  | none => v

/-- Seventeen tasks with ids 1 to 17, all arriving at time 0 with burst 1. -/
def seventeenTasks : List Task :=
  (List.range 17).map (fun i => ⟨(i : Int) + 1, 0, 1, 1, -1, -1⟩)

/-! ### Round robin (lines 88-107) -/

/-- One line printed by round robin: `Task id executed from a to b`. -/
structure Slice where
  id : Int
  executedFrom : Int
  executedTo : Int
  deriving DecidableEq, Repr

/-- The variables of `roundRobinScheduling`: the queue `q`, the clock and the
lines printed so far. -/
structure RRState where
  q : List Task
  currentTime : Int
  out : List Slice
  deriving DecidableEq, Repr

/-- The state after `for (auto &task : tasks) q.push(task);`. -/
def rrInit (tasks : List Task) : RRState := ⟨tasks, 0, []⟩

/-- One iteration of `while (!q.empty())` (lines 95-106); `none` when the queue
is empty and the loop exits. -/
def rrStep (quantum : Int) (s : RRState) : Option RRState :=
  match s.q with
  | [] => none
  | t :: rest =>
    let execTime := min quantum t.burstTime
    let t : Task := { t with burstTime := t.burstTime - execTime }
    some { q := if t.burstTime > 0 then rest ++ [t] else rest
           currentTime := s.currentTime + execTime
           out := s.out ++ [⟨t.id, s.currentTime, s.currentTime + execTime⟩] }

/-- The state after exactly `n` iterations of the loop, if the loop runs that long. -/
def rrAfter (quantum : Int) : Nat → RRState → Option RRState
  | 0, s => some s
  | n + 1, s => (rrStep quantum s).bind (rrAfter quantum n)

/-- The `while` loop run with a bound on the number of iterations: `none` when
the bound is reached with a non-empty queue. -/
def rrLoop (quantum : Int) : Nat → RRState → Option RRState
  | 0, s => if s.q.isEmpty then some s else none
  | fuel + 1, s =>
    match rrStep quantum s with
    | none => some s
    | some s => rrLoop quantum fuel s

/-- `roundRobinScheduling(tasks, quantum)`: the printed lines, when the loop
exits within `fuel` iterations. -/
def roundRobinScheduling (tasks : List Task) (quantum : Int) (fuel : Nat) :
    Option (List Slice) :=
  (rrLoop quantum fuel (rrInit tasks)).map (fun s => s.out)

/-- A number of iterations that suffices for a queue of tasks with
non-negative bursts and a positive quantum. -/
def rrFuel (tasks : List Task) : Nat :=
  (tasks.map (fun t => t.burstTime.toNat + 1)).sum

/-- Total length of the slices printed for task id `x`. -/
def sliceTime (x : Int) (out : List Slice) : Int :=
  ((out.filter (fun sl => decide (sl.id = x))).map (fun sl => sl.executedTo - sl.executedFrom)).sum

/-- Total burst time of the tasks with id `x`. -/
def burstOf (x : Int) (tasks : List Task) : Int :=
  ((tasks.filter (fun t => decide (t.id = x))).map (fun t => t.burstTime)).sum

/-! ### Priority scheduling with aging (lines 110-190) -/

/-- One dispatch: the copy `current` handed to the execution thread, the clock
value at which it was selected, and the two metrics of the printed row. -/
structure Dispatch where
  current : Task
  selectedAt : Int
  waitingTime : Int
  turnaroundTime : Int
  deriving DecidableEq, Repr

/-- The variables of the selection loop of `prioritySchedulingWithAging`. -/
structure PState where
  tasks : List Task
  currentTime : Int
  waitingTimes : List Int
  turnaroundTimes : List Int
  rows : List Dispatch
  deriving DecidableEq, Repr

/-- The scan of `std::max_element` after its first element: `best` is the
current result with its index, `i` the index of the next element. -/
def maxElementAux (comp : Task → Task → Bool) : List Task → Nat × Task → Nat → Nat × Task
  | [], best, _ => best
  | t :: rest, best, i =>
    if comp best.2 t then maxElementAux comp rest (i, t) (i + 1)
    else maxElementAux comp rest best (i + 1)

/-- `std::max_element(first, last, comp)`: index and value of the result, `none`
on an empty range.  The C++ standard fixes the result as the first element that
no other element exceeds; this is the usual left-to-right scan computing it. -/
def maxElement (comp : Task → Task → Bool) : List Task → Option (Nat × Task)
  | [] => none
  | t :: rest => some (maxElementAux comp rest (0, t) 1)

/-- The aging loop (lines 137-139). -/
def ageReady (currentTime : Int) (tasks : List Task) : List Task :=
  tasks.map (fun t =>
    if t.arrivalTime ≤ currentTime then { t with priority := t.priority + 1 } else t)

/-- One iteration of `while (!tasks.empty())` (lines 124-174); `none` when the
vector is empty and the loop exits. -/
def priorityStep (s : PState) : Option PState :=
  let readyQueue := s.tasks.filter (fun t => decide (t.arrivalTime ≤ s.currentTime))
  if s.tasks.isEmpty then none
  else if readyQueue.isEmpty then some { s with currentTime := s.currentTime + 1 }
  else
    let tasks := ageReady s.currentTime s.tasks
    match maxElement byPriority tasks with
    | none => none
    | some (i, current) =>
      let tasks := tasks.eraseIdx i
      let currentTime := s.currentTime + current.burstTime
      let waitingTime := currentTime - current.arrivalTime - current.burstTime
      let turnaroundTime := currentTime - current.arrivalTime
      some { tasks := tasks
             currentTime := currentTime
             waitingTimes := s.waitingTimes ++ [waitingTime]
             turnaroundTimes := s.turnaroundTimes ++ [turnaroundTime]
             rows := s.rows ++ [⟨current, s.currentTime, waitingTime, turnaroundTime⟩] }

/-- The state when the selection loop is entered: the vector sorted by arrival
time, clock 0, nothing recorded. -/
def priorityInit (sort : (Task → Task → Bool) → List Task → List Task)
    (tasks : List Task) : PState :=
  ⟨sort byArrival tasks, 0, [], [], []⟩

/-- The state after exactly `n` iterations of the selection loop, if it runs that long. -/
def priorityAfter : Nat → PState → Option PState
  | 0, s => some s
  | n + 1, s => (priorityStep s).bind (priorityAfter n)

/-- The selection loop run with a bound on the number of iterations. -/
def priorityLoop : Nat → PState → Option PState
  | 0, s => if s.tasks.isEmpty then some s else none
  | fuel + 1, s =>
    match priorityStep s with
    | none => some s
    | some s => priorityLoop fuel s

/-- `prioritySchedulingWithAging(tasks)` up to the end of the selection loop,
when the loop exits within `fuel` iterations. -/
def prioritySchedulingWithAging (sort : (Task → Task → Bool) → List Task → List Task)
    (tasks : List Task) (fuel : Nat) : Option PState :=
  priorityLoop fuel (priorityInit sort tasks)

/-- Number of dispatch rounds among `times` (clock values at which a selection
took place) at which a task arriving at `arrival` was Ready. -/
def agingRounds (times : List Int) (arrival : Int) : Int :=
  ((times.filter (fun c => decide (arrival ≤ c))).length : Int)

/-- A task with the aging of the rounds `times` taken off its priority. -/
def withoutAging (times : List Int) (t : Task) : Task :=
  { t with priority := t.priority - agingRounds times t.arrivalTime }

/-- The dispatched tasks, each with the aging of the rounds up to and including
its own taken off; `past` are the rounds before the first row. -/
def originals : List Int → List Dispatch → List Task
  | _, [] => []
  | past, r :: rs =>
    withoutAging (past ++ [r.selectedAt]) r.current :: originals (past ++ [r.selectedAt]) rs

/-! ### Concrete workloads -/

/-- The scenario of the specification: (id, arrival, burst, priority). -/
def scenario : List Task := [⟨1, 2, 4, 1, -1, -1⟩, ⟨2, 0, 2, 2, -1, -1⟩, ⟨3, 4, 1, 1, -1, -1⟩]

/-- A task that has arrived and a high-priority task that arrives at time 10. -/
def lateArrival : List Task := [⟨1, 0, 1, 1, -1, -1⟩, ⟨2, 10, 1, 100, -1, -1⟩]

/-- A long task followed by a task that becomes Ready while it runs. -/
def longThenShort : List Task := [⟨1, 0, 5, 10, -1, -1⟩, ⟨2, 1, 1, 1, -1, -1⟩]

/-- A long task and two equal-priority tasks whose ids descend with arrival. -/
def tieWorkload : List Task :=
  [⟨3, 0, 5, 10, -1, -1⟩, ⟨2, 1, 1, 1, -1, -1⟩, ⟨1, 2, 1, 1, -1, -1⟩]

/-- Two tasks A (id 1) and B (id 2) with bursts 5 and 3. -/
def twoTasks : List Task := [⟨1, 0, 5, 1, -1, -1⟩, ⟨2, 0, 3, 1, -1, -1⟩]

/-- The round-robin state for `twoTasks` and quantum 2 after three iterations. -/
def twoTasksAfter3 : RRState :=
  ⟨[⟨2, 0, 1, 1, -1, -1⟩, ⟨1, 0, 1, 1, -1, -1⟩], 6, [⟨1, 0, 2⟩, ⟨2, 2, 4⟩, ⟨1, 4, 6⟩]⟩

/-- The selection-loop state for `tieWorkload` after the first dispatch. -/
def tieState : PState :=
  ⟨[⟨2, 1, 1, 1, -1, -1⟩, ⟨1, 2, 1, 1, -1, -1⟩], 5, [0], [5], [⟨⟨3, 0, 5, 11, -1, -1⟩, 0, 0, 5⟩]⟩

/-- The selection-loop state for `longThenShort` when the loop exits. -/
def longThenShortFinal : PState :=
  ⟨[], 6, [0, 4], [5, 5],
    [⟨⟨1, 0, 5, 11, -1, -1⟩, 0, 0, 5⟩, ⟨⟨2, 1, 1, 2, -1, -1⟩, 5, 4, 5⟩]⟩

/-- Number of clock ticks a task arriving at `arrival` has spent Ready when the
clock shows `selectedAt`. -/
def readyTicks (arrival selectedAt : Int) : Int := max 0 (selectedAt - arrival)

/-- The reading of the specification: every dispatched task carries its original
priority plus the number of clock ticks it spent Ready before being selected;
`own` is 1 when the tick of the selection itself is counted and 0 otherwise. -/
def AgedPerTick (own : Int) (tasks : List Task) (rows : List Dispatch) : Prop :=
  ∀ r ∈ rows, ∃ o ∈ tasks, o.id = r.current.id ∧
    r.current.priority = o.priority + (readyTicks o.arrivalTime r.selectedAt + own)

/-! ### Specification-side predicates for the timeline walk -/

/-- The clock value when row `i` is reached: `c` before the first row, the
finish time of row `i - 1` afterwards. -/
def finishBefore (c : Int) (rows : List Row) : Nat → Int
  | 0 => c
  | i + 1 =>
    match rows[i]? with
    | some r => r.finish
    | none => 0

/-- The timeline recurrence of the specification for a walk over `sorted` that
prints `rows`: `start i = max (finish (i-1)) (arrival i)` with `finish (-1) = 0`,
`finish i = start i + burst i`, `arrival ≤ start ≤ finish` on every row, and no
two rows overlap. -/
def WalkSpec (sorted : List Task) (rows : List Row) : Prop :=
  rows.length = sorted.length ∧
  (∀ i t r, sorted[i]? = some t → rows[i]? = some r →
    r.id = t.id ∧ r.start = max (finishBefore 0 rows i) t.arrivalTime ∧
    r.finish = r.start + t.burstTime ∧ t.arrivalTime ≤ r.start ∧ r.start ≤ r.finish) ∧
  rows.Pairwise (fun r1 r2 => r1.finish ≤ r2.start)

/-! ### Round robin: termination measure and further workloads -/

/-- The measure of the specification for the round-robin queue: the sum of the
remaining bursts plus the queue length. -/
def rrMeasure (q : List Task) : Int :=
  (q.map (fun t => t.burstTime)).sum + (q.length : Int)

/-- A single task with burst 1. -/
def oneTask : List Task := [⟨1, 0, 1, 1, -1, -1⟩]

/-- A task with burst 0 between two tasks with positive burst. -/
def zeroBurstTasks : List Task :=
  [⟨1, 0, 3, 1, -1, -1⟩, ⟨2, 0, 0, 1, -1, -1⟩, ⟨3, 0, 1, 1, -1, -1⟩]

/-- The round-robin state for `zeroBurstTasks` and quantum 2 after one iteration:
the task with burst 0 is at the head of the queue. -/
def zeroBurstAfter1 : RRState :=
  ⟨[⟨2, 0, 0, 1, -1, -1⟩, ⟨3, 0, 1, 1, -1, -1⟩, ⟨1, 0, 1, 1, -1, -1⟩], 2, [⟨1, 0, 2⟩]⟩

/-! ### The averaging step (lines 182-184) -/

/-- The value of the `double` division of the sum of a vector by its size, as
far as it matters here: for an empty vector the operation is `0.0 / 0`, which is
NaN under IEEE 754 arithmetic; otherwise it is the (rounded) quotient, which is
kept symbolic. -/
inductive DoubleQuotient where
  | nan
  | quotient (sum : Int) (count : Nat)
  deriving DecidableEq, Repr

/-- The expression `accumulate(v.begin(), v.end(), 0.0) / v.size()`: the division
is performed whatever the size is. -/
def divideDouble (v : List Int) : DoubleQuotient :=
  if v.length = 0 then DoubleQuotient.nan else DoubleQuotient.quotient v.sum v.length

/-- The pair `(avgWT, avgTAT)` computed after the selection loop. -/
def averages (s : PState) : DoubleQuotient × DoubleQuotient :=
  (divideDouble s.waitingTimes, divideDouble s.turnaroundTimes)

/-- The averages `prioritySchedulingWithAging` reports, when the selection loop
exits within `fuel` iterations. -/
def priorityAverages (sort : (Task → Task → Bool) → List Task → List Task)
    (tasks : List Task) (fuel : Nat) : Option (DoubleQuotient × DoubleQuotient) :=
  (prioritySchedulingWithAging sort tasks fuel).map averages

/-! ### Specification-side predicates for the round-robin timeline -/

/-- Sum of the burst times of a task list. -/
def totalBurst (tasks : List Task) : Int := (tasks.map (fun t => t.burstTime)).sum

/-- Slices that follow one another from clock `c`: each starts where the one
before ended (the first at `c`) and does not end before it starts. -/
def Chained : Int → List Slice → Prop
  | _, [] => True
  | c, sl :: rest =>
    sl.executedFrom = c ∧ sl.executedFrom ≤ sl.executedTo ∧ Chained sl.executedTo rest

/-- The end of the last slice, `c` when there is none. -/
def endOf : Int → List Slice → Int
  | c, [] => c
  | _, sl :: rest => endOf sl.executedTo rest

/-- The timeline property of the specification for the printed slices: the first
slice starts at 0, every later slice starts where the previous one ended, end
times are non-decreasing, and the last slice ends at `total`. -/
def ContiguousTimeline (out : List Slice) (total : Int) : Prop :=
  (∀ a, out[0]? = some a → a.executedFrom = 0) ∧
  (∀ i a b, out[i]? = some a → out[i + 1]? = some b → b.executedFrom = a.executedTo) ∧
  out.Pairwise (fun a b => a.executedTo ≤ b.executedTo) ∧
  (∀ a, out.getLast? = some a → a.executedTo = total)

/-! ### Priority scheduling: termination bound -/

/-- A number of iterations that suffices for the selection loop when burst times
are non-negative: one dispatch per remaining task plus the idle ticks until each
of them has arrived. -/
def priorityFuel (tasks : List Task) (currentTime : Int) : Nat :=
  (tasks.map (fun t => (t.arrivalTime - currentTime).toNat + 1)).sum

/-- A task with negative burst followed by a task with positive burst. -/
def negativeBurstTasks : List Task := [⟨1, 0, -1, 1, -1, -1⟩, ⟨2, 0, 1, 1, -1, -1⟩]

/-- The round-robin state for `twoTasks` and quantum 0 after three iterations. -/
def twoTasksZeroQuantumAfter3 : RRState :=
  ⟨[⟨2, 0, 3, 1, -1, -1⟩, ⟨1, 0, 5, 1, -1, -1⟩], 0, [⟨1, 0, 0⟩, ⟨2, 0, 0⟩, ⟨1, 0, 0⟩]⟩

/-! ## Helper lemmas: comparators and sorting -/

theorem byArrival_swo : StrictWeakOrder byArrival := by
  refine ⟨?_, ?_, ?_⟩ <;> intros <;> simp_all [byArrival] <;> omega

theorem byBurst_swo : StrictWeakOrder byBurst := by
  refine ⟨?_, ?_, ?_⟩ <;> intros <;> simp_all [byBurst] <;> omega

theorem byPriority_swo : StrictWeakOrder byPriority := by
  refine ⟨?_, ?_, ?_⟩ <;> intros <;> simp_all [byPriority] <;> omega

theorem insertionSort_contract (comp : Task → Task → Bool) (h : StrictWeakOrder comp)
    (l : List Task) :
    (List.insertionSort (fun a b => comp b a = false) l).Perm l ∧
      (List.insertionSort (fun a b => comp b a = false) l).Pairwise
        (fun a b => comp b a = false) := by
  refine ⟨List.perm_insertionSort _ l, ?_⟩
  haveI : IsTotal Task (fun a b => comp b a = false) := ⟨fun a b => by
    by_cases hab : comp a b = true
    · left
      by_contra hba
      have hba : comp b a = true := by simpa using hba
      have := h.trans a b a hab hba
      rw [h.irrefl a] at this
      exact Bool.noConfusion this
    · right
      simpa using hab⟩
  haveI : IsTrans Task (fun a b => comp b a = false) :=
    ⟨fun a b c hab hbc => h.negTrans c b a hbc hab⟩
  exact List.sorted_insertionSort (fun a b => comp b a = false) l

theorem insertionSortBy_stdSort : StdSort insertionSortBy :=
  fun comp h l => insertionSort_contract comp h l

theorem byArrival_false_iff (a b : Task) :
    byArrival b a = false ↔ a.arrivalTime ≤ b.arrivalTime := by
  simp [byArrival]

theorem byBurst_false_iff (a b : Task) :
    byBurst b a = false ↔ a.burstTime ≤ b.burstTime := by
  simp [byBurst]

/-- When no two elements are equivalent, every routine meeting `StdSort` returns
the same list. -/
theorem stdSort_unique (sort : (Task → Task → Bool) → List Task → List Task)
    (hsort : StdSort sort) (comp : Task → Task → Bool) (hc : StrictWeakOrder comp)
    (l : List Task) (hd : l.Pairwise (fun a b => comp a b = true ∨ comp b a = true)) :
    sort comp l = insertionSortBy comp l := by
  have strict : ∀ l2 : List Task, l2.Perm l → l2.Pairwise (fun a b => comp b a = false) →
      l2.Pairwise (fun a b => comp a b = true) := by
    intro l2 hp hs
    have hd2 := (hp.pairwise_iff (fun h => h.symm)).mpr hd
    refine (hs.and hd2).imp ?_
    rintro a b ⟨h1, h2 | h2⟩
    · exact h2
    · rw [h1] at h2
      exact Bool.noConfusion h2
  haveI : IsAntisymm Task (fun a b => comp a b = true) := ⟨fun a b hab hba => by
    have := hc.trans a b a hab hba
    rw [hc.irrefl a] at this
    exact Bool.noConfusion this⟩
  obtain ⟨hp1, hs1⟩ := hsort comp hc l
  obtain ⟨hp2, hs2⟩ := insertionSortBy_stdSort comp hc l
  exact List.eq_of_perm_of_sorted (hp1.trans hp2.symm) (strict _ hp1 hs1) (strict _ hp2 hs2)

/-! ## Helper lemmas: the timeline walk -/

theorem timelineWalk_ids (l : List Task) (c : Int) :
    (timelineWalk l c).map (fun r => r.id) = l.map (fun t => t.id) := by
  induction l generalizing c with
  | nil => rfl
  | cons t rest ih => simp [timelineWalk, ih]

theorem timelineWalk_length (l : List Task) (c : Int) :
    (timelineWalk l c).length = l.length := by
  induction l generalizing c with
  | nil => rfl
  | cons t rest ih => simp [timelineWalk, ih]

theorem timelineWalk_start_ge (l : List Task) (hb : ∀ t ∈ l, 0 ≤ t.burstTime) (c : Int) :
    ∀ r ∈ timelineWalk l c, c ≤ r.start := by
  induction l generalizing c with
  | nil => intro r hr; simp [timelineWalk] at hr
  | cons t rest ih =>
    intro r hr
    have ht : 0 ≤ t.burstTime := hb t (List.mem_cons_self _ _)
    simp only [timelineWalk, List.mem_cons] at hr
    rcases hr with hr | hr
    · subst hr
      show c ≤ if c < t.arrivalTime then t.arrivalTime else c
      split <;> omega
    · have := ih (fun u hu => hb u (List.mem_cons_of_mem _ hu)) _ r hr
      split at this <;> omega

theorem timelineWalk_pairwise (l : List Task) (hb : ∀ t ∈ l, 0 ≤ t.burstTime) (c : Int) :
    (timelineWalk l c).Pairwise (fun r1 r2 => r1.finish ≤ r2.start) := by
  induction l generalizing c with
  | nil => simp [timelineWalk]
  | cons t rest ih =>
    have hrest : ∀ u ∈ rest, 0 ≤ u.burstTime := fun u hu => hb u (List.mem_cons_of_mem _ hu)
    simp only [timelineWalk, List.pairwise_cons]
    exact ⟨fun r hr => timelineWalk_start_ge rest hrest _ r hr, ih hrest _⟩

theorem finishBefore_cons (c : Int) (r0 : Row) (rows : List Row) (k : Nat) :
    finishBefore c (r0 :: rows) (k + 1) = finishBefore r0.finish rows k := by
  cases k with
  | zero => simp [finishBefore]
  | succ j => simp [finishBefore]

theorem timelineWalk_rows (l : List Task) (hb : ∀ t ∈ l, 0 ≤ t.burstTime) (c : Int) :
    ∀ i t r, l[i]? = some t → (timelineWalk l c)[i]? = some r →
      r.id = t.id ∧ r.start = max (finishBefore c (timelineWalk l c) i) t.arrivalTime ∧
      r.finish = r.start + t.burstTime ∧ t.arrivalTime ≤ r.start ∧ r.start ≤ r.finish := by
  induction l generalizing c with
  | nil => intro i t r h; simp at h
  | cons t0 rest ih =>
    have hrest : ∀ u ∈ rest, 0 ≤ u.burstTime := fun u hu => hb u (List.mem_cons_of_mem _ hu)
    have ht0 : 0 ≤ t0.burstTime := hb t0 (List.mem_cons_self _ _)
    intro i t r hi hr
    cases i with
    | zero =>
      simp only [timelineWalk, List.getElem?_cons_zero, Option.some.injEq] at hi hr
      subst hi
      subst hr
      simp only [finishBefore]
      refine ⟨trivial, ?_, trivial, ?_, ?_⟩
      · split <;> omega
      · split <;> omega
      · omega
    | succ k =>
      simp only [timelineWalk, List.getElem?_cons_succ] at hi hr
      have := ih hrest _ k t r hi hr
      simp only [timelineWalk, finishBefore_cons]
      exact this

theorem timelineWalk_spec (l : List Task) (hb : ∀ t ∈ l, 0 ≤ t.burstTime) :
    WalkSpec l (timelineWalk l 0) :=
  ⟨timelineWalk_length l 0, timelineWalk_rows l hb 0, timelineWalk_pairwise l hb 0⟩

/-- Any list that is a stable sort of a list whose keys are all equal to `k` is
that list itself. -/
theorem stableSortedBy_const_key (key : Task → Int) (k : Int) (input out : List Task)
    (hk : ∀ t ∈ input, key t = k) (h : StableSortedBy key input out) : out = input := by
  obtain ⟨hp, _, hf⟩ := h
  have h1 : out.filter (fun t => decide (key t = k)) = out :=
    List.filter_eq_self.mpr (fun t ht => by simpa using hk t (hp.subset ht))
  have h2 : input.filter (fun t => decide (key t = k)) = input :=
    List.filter_eq_self.mpr (fun t ht => by simpa using hk t ht)
  rw [← h1, hf k, h2]

/-! ## C1, C2: the order FCFS and SJF emit -/

/-- C1 as stated fails: on ranges of more than 16 elements the `std::sort` of
libstdc++ partitions around a median before its insertion sort and moves
equivalent elements past one another.  On `seventeenTasks`, whose tasks all
arrive at time 0, it runs to completion and returns a permutation, FCFS emits
the ids 9, 17, 16, ..., 10, 1, 8, 7, ..., 2, and these are not the ids of any
stable sort of that input by arrival time (which is 1, 2, ..., 17). -/
theorem fcfs_stable_order_counterexample :
    sortRange byArrival seventeenTasks = some (stdSortGcc byArrival seventeenTasks) ∧
    (stdSortGcc byArrival seventeenTasks).Perm seventeenTasks ∧
    (fcfsScheduling stdSortGcc seventeenTasks).2.map (fun r => r.id) =
      [9, 17, 16, 15, 14, 13, 12, 11, 10, 1, 8, 7, 6, 5, 4, 3, 2] ∧
    ¬ ∃ out, StableSortedBy (fun t => t.arrivalTime) seventeenTasks out ∧
      (fcfsScheduling stdSortGcc seventeenTasks).2.map (fun r => r.id) =
        out.map (fun t => t.id) := by
  refine ⟨by decide, by decide, by decide, ?_⟩
  rintro ⟨out, hst, hids⟩
  have hout := stableSortedBy_const_key (fun t => t.arrivalTime) 0 seventeenTasks out
    (by decide) hst
  subst hout
  revert hids
  decide

/-- C1 (amended): for every routine meeting the `std::sort` guarantee and every
task list, the ids FCFS emits are the ids of a permutation of the input along
which arrival times are non-decreasing (that permutation is the vector FCFS
leaves behind). Nothing is promised about tasks with equal arrival time. -/
theorem fcfs_order_sorted_permutation (sort : (Task → Task → Bool) → List Task → List Task)
    (hsort : StdSort sort) (tasks : List Task) :
    (fcfsScheduling sort tasks).2.map (fun r => r.id) =
        (fcfsScheduling sort tasks).1.map (fun t => t.id) ∧
      (fcfsScheduling sort tasks).1.Perm tasks ∧
      (fcfsScheduling sort tasks).1.Pairwise (fun a b => a.arrivalTime ≤ b.arrivalTime) := by
  obtain ⟨hp, hs⟩ := hsort byArrival byArrival_swo tasks
  refine ⟨timelineWalk_ids _ 0, hp, hs.imp ?_⟩
  intro a b h
  exact (byArrival_false_iff a b).mp h

/-- Witness for C1 (amended) on the scenario of the specification. -/
theorem fcfs_order_sorted_permutation_witness :
    StdSort insertionSortBy ∧
    (fcfsScheduling insertionSortBy scenario).2.map (fun r => r.id) = [2, 1, 3] ∧
    (fcfsScheduling insertionSortBy scenario).1.Perm scenario ∧
    (fcfsScheduling insertionSortBy scenario).1.Pairwise
      (fun a b => a.arrivalTime ≤ b.arrivalTime) :=
  ⟨insertionSortBy_stdSort, by decide,
    (fcfs_order_sorted_permutation insertionSortBy insertionSortBy_stdSort scenario).2⟩

/-- C2 as stated fails: on `seventeenTasks`, whose tasks all have burst 1, the
`std::sort` of libstdc++ runs to completion and returns a permutation, SJF emits
the ids 9, 17, 16, ..., 10, 1, 8, 7, ..., 2, and these are not the ids of any
stable sort of that input by burst time (which is 1, 2, ..., 17). -/
theorem sjf_stable_order_counterexample :
    sortRange byBurst seventeenTasks = some (stdSortGcc byBurst seventeenTasks) ∧
    (stdSortGcc byBurst seventeenTasks).Perm seventeenTasks ∧
    (sjfScheduling stdSortGcc seventeenTasks).map (fun r => r.id) =
      [9, 17, 16, 15, 14, 13, 12, 11, 10, 1, 8, 7, 6, 5, 4, 3, 2] ∧
    ¬ ∃ out, StableSortedBy (fun t => t.burstTime) seventeenTasks out ∧
      (sjfScheduling stdSortGcc seventeenTasks).map (fun r => r.id) =
        out.map (fun t => t.id) := by
  refine ⟨by decide, by decide, by decide, ?_⟩
  rintro ⟨out, hst, hids⟩
  have hout := stableSortedBy_const_key (fun t => t.burstTime) 1 seventeenTasks out
    (by decide) hst
  subst hout
  revert hids
  decide

/-- C2 (amended): for every routine meeting the `std::sort` guarantee and every
task list, the ids SJF emits are the ids of a permutation of the input along
which burst times are non-decreasing. Nothing is promised about tasks with
equal burst time. -/
theorem sjf_order_sorted_permutation (sort : (Task → Task → Bool) → List Task → List Task)
    (hsort : StdSort sort) (tasks : List Task) :
    ∃ sorted : List Task, sorted.Perm tasks ∧
      sorted.Pairwise (fun a b => a.burstTime ≤ b.burstTime) ∧
      (sjfScheduling sort tasks).map (fun r => r.id) = sorted.map (fun t => t.id) := by
  obtain ⟨hp, hs⟩ := hsort byBurst byBurst_swo tasks
  refine ⟨sort byBurst tasks, hp, hs.imp ?_, timelineWalk_ids _ 0⟩
  intro a b h
  exact (byBurst_false_iff a b).mp h

/-- Witness for C2 (amended) on the scenario of the specification. -/
theorem sjf_order_sorted_permutation_witness :
    StdSort insertionSortBy ∧
    ∃ sorted : List Task, sorted.Perm scenario ∧
      sorted.Pairwise (fun a b => a.burstTime ≤ b.burstTime) ∧
      (sjfScheduling insertionSortBy scenario).map (fun r => r.id) =
        sorted.map (fun t => t.id) :=
  ⟨insertionSortBy_stdSort,
    sjf_order_sorted_permutation insertionSortBy insertionSortBy_stdSort scenario⟩

/-! ## C3: the timeline recurrence -/

/-- On the scenario every conforming sort yields the same FCFS and SJF order,
because neither arrival times nor burst times repeat. -/
theorem scenario_sorted (sort : (Task → Task → Bool) → List Task → List Task)
    (hsort : StdSort sort) :
    sort byArrival scenario = insertionSortBy byArrival scenario ∧
      sort byBurst scenario = insertionSortBy byBurst scenario :=
  ⟨stdSort_unique sort hsort byArrival byArrival_swo scenario (by decide),
    stdSort_unique sort hsort byBurst byBurst_swo scenario (by decide)⟩

/-- C3: for every routine meeting the `std::sort` guarantee and every task list
with non-negative burst times, the rows printed by FCFS and by SJF obey the
timeline recurrence over the sorted sequence: `start i = max (finish (i-1))
(arrival i)` with `finish (-1) = 0`, `finish i = start i + burst i`, hence
`arrival ≤ start ≤ finish` on every row and no two rows overlap; and on the
scenario FCFS prints task 2 `[0,2)`, task 1 `[2,6)`, task 3 `[6,7)`.  The bound
`arrivalTime ≥ 0` of the claim is not needed. -/
theorem timeline_walk_recurrence (sort : (Task → Task → Bool) → List Task → List Task)
    (hsort : StdSort sort) (tasks : List Task) (hburst : ∀ t ∈ tasks, 0 ≤ t.burstTime) :
    WalkSpec (sort byArrival tasks) (fcfsScheduling sort tasks).2 ∧
      WalkSpec (sort byBurst tasks) (sjfScheduling sort tasks) ∧
      (fcfsScheduling sort scenario).2 = [⟨2, 0, 2⟩, ⟨1, 2, 6⟩, ⟨3, 6, 7⟩] := by
  refine ⟨?_, ?_, ?_⟩
  · exact timelineWalk_spec _
      (fun t ht => hburst t ((hsort byArrival byArrival_swo tasks).1.subset ht))
  · exact timelineWalk_spec _
      (fun t ht => hburst t ((hsort byBurst byBurst_swo tasks).1.subset ht))
  · show timelineWalk (sort byArrival scenario) 0 = _
    rw [(scenario_sorted sort hsort).1]
    decide

/-- Witness for C3 on the scenario of the specification. -/
theorem timeline_walk_recurrence_witness :
    StdSort insertionSortBy ∧ (∀ t ∈ scenario, 0 ≤ t.burstTime) ∧
    WalkSpec (insertionSortBy byArrival scenario) (fcfsScheduling insertionSortBy scenario).2 ∧
      WalkSpec (insertionSortBy byBurst scenario) (sjfScheduling insertionSortBy scenario) ∧
      (fcfsScheduling insertionSortBy scenario).2 = [⟨2, 0, 2⟩, ⟨1, 2, 6⟩, ⟨3, 6, 7⟩] :=
  ⟨insertionSortBy_stdSort, by decide,
    timeline_walk_recurrence insertionSortBy insertionSortBy_stdSort scenario (by decide)⟩

/-! ## C4: SJF on the scenario -/

/-- C4 as stated fails: on the scenario SJF does not process the tasks in the
order 2, 3, 1 and does not print task 2 `[0,2)`, task 3 `[2,3)`, task 1 `[3,7)`. -/
theorem sjf_scenario_counterexample :
    StdSort insertionSortBy ∧
    (sjfScheduling insertionSortBy scenario).map (fun r => r.id) ≠ [2, 3, 1] ∧
    sjfScheduling insertionSortBy scenario ≠ [⟨2, 0, 2⟩, ⟨3, 2, 3⟩, ⟨1, 3, 7⟩] :=
  ⟨insertionSortBy_stdSort, by decide, by decide⟩

/-- C4 (amended): on the scenario, for every routine meeting the `std::sort`
guarantee, SJF processes the tasks in the order 3, 2, 1 (burst times 1, 2, 4)
and prints task 3 `[4,5)`, task 2 `[5,7)`, task 1 `[7,11)`. -/
theorem sjf_scenario_rows (sort : (Task → Task → Bool) → List Task → List Task)
    (hsort : StdSort sort) :
    (sjfScheduling sort scenario).map (fun r => r.id) = [3, 2, 1] ∧
      sjfScheduling sort scenario = [⟨3, 4, 5⟩, ⟨2, 5, 7⟩, ⟨1, 7, 11⟩] := by
  have h : sjfScheduling sort scenario = [⟨3, 4, 5⟩, ⟨2, 5, 7⟩, ⟨1, 7, 11⟩] := by
    show timelineWalk (sort byBurst scenario) 0 = _
    rw [(scenario_sorted sort hsort).2]
    decide
  rw [h]
  exact ⟨by decide, rfl⟩

/-- Witness for C4 (amended) with insertion sort. -/
theorem sjf_scenario_rows_witness :
    StdSort insertionSortBy ∧
    (sjfScheduling insertionSortBy scenario).map (fun r => r.id) = [3, 2, 1] ∧
      sjfScheduling insertionSortBy scenario = [⟨3, 4, 5⟩, ⟨2, 5, 7⟩, ⟨1, 7, 11⟩] :=
  ⟨insertionSortBy_stdSort, sjf_scenario_rows insertionSortBy insertionSortBy_stdSort⟩

/-! ## Helper lemmas: round robin -/

theorem rrAfter_invariant (quantum : Int) (P : RRState → Prop)
    (hstep : ∀ s s2, P s → rrStep quantum s = some s2 → P s2) :
    ∀ (n : Nat) (s s2 : RRState), P s → rrAfter quantum n s = some s2 → P s2 := by
  intro n
  induction n with
  | zero =>
    intro s s2 hP h
    simp only [rrAfter, Option.some.injEq] at h
    exact h ▸ hP
  | succ n ih =>
    intro s s2 hP h
    simp only [rrAfter] at h
    cases hst : rrStep quantum s with
    | none => rw [hst] at h; simp at h
    | some s1 =>
      rw [hst] at h
      exact ih s1 s2 (hstep s s1 hP hst) h

theorem rrStep_cons (quantum : Int) (s : RRState) (t : Task) (rest : List Task)
    (hq : s.q = t :: rest) :
    rrStep quantum s = some
      { q := if 0 < t.burstTime - min quantum t.burstTime then
               rest ++ [{ t with burstTime := t.burstTime - min quantum t.burstTime }]
             else rest
        currentTime := s.currentTime + min quantum t.burstTime
        out := s.out ++ [⟨t.id, s.currentTime, s.currentTime + min quantum t.burstTime⟩] } := by
  simp [rrStep, hq]

theorem rrStep_nil (quantum : Int) (s : RRState) (hq : s.q = []) : rrStep quantum s = none := by
  simp [rrStep, hq]

theorem rrStep_burst_nonneg (quantum : Int) (s s2 : RRState)
    (h : ∀ t ∈ s.q, 0 ≤ t.burstTime) (hst : rrStep quantum s = some s2) :
    ∀ t ∈ s2.q, 0 ≤ t.burstTime := by
  cases hq : s.q with
  | nil => rw [rrStep_nil quantum s hq] at hst; simp at hst
  | cons t rest =>
    rw [rrStep_cons quantum s t rest hq, Option.some.injEq] at hst
    subst hst
    have hrest : ∀ u ∈ rest, 0 ≤ u.burstTime := fun u hu => h u (hq ▸ List.mem_cons_of_mem _ hu)
    intro u hu
    simp only at hu
    split at hu
    · rcases List.mem_append.mp hu with hu | hu
      · exact hrest u hu
      · simp only [List.mem_singleton] at hu
        subst hu
        simp only
        omega
    · exact hrest u hu

theorem rrStep_slices_bounded (quantum : Int) (hquantum : 0 < quantum) (s s2 : RRState)
    (h : (∀ t ∈ s.q, 0 ≤ t.burstTime) ∧
      ∀ sl ∈ s.out, 0 ≤ sl.executedTo - sl.executedFrom ∧ sl.executedTo - sl.executedFrom ≤ quantum)
    (hst : rrStep quantum s = some s2) :
    (∀ t ∈ s2.q, 0 ≤ t.burstTime) ∧
      ∀ sl ∈ s2.out, 0 ≤ sl.executedTo - sl.executedFrom ∧
        sl.executedTo - sl.executedFrom ≤ quantum := by
  refine ⟨rrStep_burst_nonneg quantum s s2 h.1 hst, ?_⟩
  cases hq : s.q with
  | nil => rw [rrStep_nil quantum s hq] at hst; simp at hst
  | cons t rest =>
    rw [rrStep_cons quantum s t rest hq, Option.some.injEq] at hst
    subst hst
    have ht : 0 ≤ t.burstTime := h.1 t (hq ▸ List.mem_cons_self _ _)
    intro sl hsl
    rcases List.mem_append.mp hsl with hsl | hsl
    · exact h.2 sl hsl
    · simp only [List.mem_singleton] at hsl
      subst hsl
      simp only
      omega

theorem sliceTime_append (x : Int) (out : List Slice) (sl : Slice) :
    sliceTime x (out ++ [sl]) =
      sliceTime x out + if sl.id = x then sl.executedTo - sl.executedFrom else 0 := by
  unfold sliceTime
  by_cases h : sl.id = x <;> simp [List.filter_append, List.filter_cons, h]

theorem burstOf_cons (x : Int) (t : Task) (l : List Task) :
    burstOf x (t :: l) = (if t.id = x then t.burstTime else 0) + burstOf x l := by
  unfold burstOf
  by_cases h : t.id = x <;> simp [List.filter_cons, h]

theorem burstOf_append (x : Int) (l : List Task) (t : Task) :
    burstOf x (l ++ [t]) = burstOf x l + if t.id = x then t.burstTime else 0 := by
  unfold burstOf
  by_cases h : t.id = x <;> simp [List.filter_append, List.filter_cons, h]

/-- One iteration moves service time from the queue to the printed slices. -/
theorem rrStep_conserves (quantum : Int) (x : Int) (s s2 : RRState)
    (hst : rrStep quantum s = some s2) :
    sliceTime x s2.out + burstOf x s2.q = sliceTime x s.out + burstOf x s.q := by
  cases hq : s.q with
  | nil => rw [rrStep_nil quantum s hq] at hst; simp at hst
  | cons t rest =>
    rw [rrStep_cons quantum s t rest hq, Option.some.injEq] at hst
    subst hst
    simp only [sliceTime_append, burstOf_cons]
    by_cases hx : t.id = x <;>
      by_cases hr : 0 < t.burstTime - min quantum t.burstTime <;>
      simp only [hr, hx, if_true, if_false, burstOf_append] <;> omega

/-- With a positive quantum every iteration lowers `rrFuel` of the queue. -/
theorem rrStep_fuel_decreases (quantum : Int) (hquantum : 0 < quantum) (s s2 : RRState)
    (hst : rrStep quantum s = some s2) : rrFuel s2.q < rrFuel s.q := by
  cases hq : s.q with
  | nil => rw [rrStep_nil quantum s hq] at hst; simp at hst
  | cons t rest =>
    rw [rrStep_cons quantum s t rest hq, Option.some.injEq] at hst
    subst hst
    simp only [rrFuel]
    split
    · simp only [List.map_append, List.map_cons, List.map_nil, List.sum_append, List.sum_cons,
        List.sum_nil]
      omega
    · simp only [List.map_cons, List.sum_cons]
      omega

theorem rrFuel_eq_zero (l : List Task) (h : rrFuel l = 0) : l = [] := by
  cases l with
  | nil => rfl
  | cons t rest =>
    simp only [rrFuel, List.map_cons, List.sum_cons] at h
    omega

/-- With a positive quantum the bounded loop exits once the bound is at least
`rrFuel` of the queue, in a state reached after finitely many iterations whose
queue is empty. -/
theorem rrLoop_terminates (quantum : Int) (hquantum : 0 < quantum) :
    ∀ (fuel : Nat) (s : RRState), rrFuel s.q ≤ fuel →
      ∃ n s2, rrAfter quantum n s = some s2 ∧ s2.q = [] ∧ rrLoop quantum fuel s = some s2 := by
  intro fuel
  induction fuel with
  | zero =>
    intro s h
    have hq : s.q = [] := rrFuel_eq_zero _ (Nat.le_zero.mp h)
    exact ⟨0, s, rfl, hq, by simp [rrLoop, hq]⟩
  | succ fuel ih =>
    intro s h
    cases hst : rrStep quantum s with
    | none =>
      have hq : s.q = [] := by
        cases hq : s.q with
        | nil => rfl
        | cons t rest => rw [rrStep_cons quantum s t rest hq] at hst; simp at hst
      exact ⟨0, s, rfl, hq, by simp [rrLoop, hst]⟩
    | some s1 =>
      have hlt := rrStep_fuel_decreases quantum hquantum s s1 hst
      obtain ⟨n, s2, hn, hq, hl⟩ := ih s1 (by omega)
      exact ⟨n + 1, s2, by simp [rrAfter, hst, hn], hq, by simp [rrLoop, hst, hl]⟩

theorem burstOf_of_nodup (l : List Task) (hn : (l.map (fun t => t.id)).Nodup) (t : Task)
    (ht : t ∈ l) : burstOf t.id l = t.burstTime := by
  induction l with
  | nil => simp at ht
  | cons u rest ih =>
    simp only [List.map_cons, List.nodup_cons, List.mem_map, not_exists, not_and] at hn
    have hzero : ∀ v : Task, (∀ w ∈ rest, w.id ≠ v.id) → burstOf v.id rest = 0 := by
      intro v hv
      unfold burstOf
      rw [List.filter_eq_nil_iff.mpr (fun w hw => by simpa using hv w hw)]
      rfl
    rw [burstOf_cons]
    rcases List.mem_cons.mp ht with h | h
    · subst h
      simp [hzero t hn.1]
    · have hne : u.id ≠ t.id := fun e => hn.1 t h e.symm
      simp [hne, ih hn.2 h]

theorem rrLoop_of_after (quantum : Int) :
    ∀ (n : Nat) (s s2 : RRState), rrAfter quantum n s = some s2 → s2.q = [] →
      ∀ k : Nat, rrLoop quantum (n + k) s = some s2 := by
  intro n
  induction n with
  | zero =>
    intro s s2 h hq k
    simp only [rrAfter, Option.some.injEq] at h
    subst h
    cases k with
    | zero => simp [rrLoop, hq]
    | succ k => simp [rrLoop, rrStep_nil quantum s hq]
  | succ n ih =>
    intro s s2 h hq k
    simp only [rrAfter] at h
    cases hst : rrStep quantum s with
    | none => rw [hst] at h; simp at h
    | some s1 =>
      rw [hst] at h
      have := ih s1 s2 h hq k
      rw [show n + 1 + k = (n + k) + 1 by omega]
      simp [rrLoop, hst, this]

/-! ## C8, C9, C10: round robin -/

/-- C8: for every task list and every quantum `q > 0`, round robin run with a
bound of at least `rrFuel tasks` iterations exits, and for every id the lengths
of the slices printed for it add up to the burst time of the input tasks with
that id; when ids are distinct this is the burst time of the task itself.  The
bound `burstTime ≥ 0` of the claim is not needed. -/
theorem round_robin_work_conserving (tasks : List Task) (quantum : Int)
    (hquantum : 0 < quantum) (fuel : Nat) (hfuel : rrFuel tasks ≤ fuel) :
    ∃ out, roundRobinScheduling tasks quantum fuel = some out ∧
      (∀ x, sliceTime x out = burstOf x tasks) ∧
      ((tasks.map (fun t => t.id)).Nodup → ∀ t ∈ tasks, sliceTime t.id out = t.burstTime) := by
  obtain ⟨n, s2, hn, hq, hl⟩ := rrLoop_terminates quantum hquantum fuel (rrInit tasks) hfuel
  have hinv : ∀ x, sliceTime x s2.out + burstOf x s2.q = burstOf x tasks := by
    intro x
    refine rrAfter_invariant quantum
      (fun s => sliceTime x s.out + burstOf x s.q = burstOf x tasks) ?_ n (rrInit tasks) s2 ?_ hn
    · intro s s1 hP hst
      simp only [rrStep_conserves quantum x s s1 hst]
      exact hP
    · simp [rrInit, sliceTime]
  have hsum : ∀ x, sliceTime x s2.out = burstOf x tasks := by
    intro x
    have := hinv x
    rw [hq] at this
    simpa [burstOf] using this
  refine ⟨s2.out, by simp [roundRobinScheduling, hl], hsum, ?_⟩
  intro hnd t ht
  rw [hsum, burstOf_of_nodup tasks hnd t ht]

/-- Witness for C8: `twoTasks` with quantum 2. -/
theorem round_robin_work_conserving_witness :
    (0 : Int) < 2 ∧ rrFuel twoTasks ≤ 10 ∧
    ∃ out, roundRobinScheduling twoTasks 2 10 = some out ∧
      (∀ x, sliceTime x out = burstOf x twoTasks) ∧
      ((twoTasks.map (fun t => t.id)).Nodup → ∀ t ∈ twoTasks, sliceTime t.id out = t.burstTime) :=
  ⟨by decide, by decide, round_robin_work_conserving twoTasks 2 (by decide) 10 (by decide)⟩

/-- C9: for every task list with non-negative burst times and every quantum
`q > 0`, in every state the loop reaches, every slice printed so far has a
length between 0 and `q`, every queued burst is non-negative, and the next
iteration dequeues the head `t`, prints a slice of length exactly
`min q t.burstTime` starting at the clock, and leaves `t` with remaining burst
`t.burstTime - min q t.burstTime ≥ 0`, re-queued at the tail exactly when that
is positive. -/
theorem round_robin_slice_length (tasks : List Task) (quantum : Int)
    (hburst : ∀ t ∈ tasks, 0 ≤ t.burstTime) (hquantum : 0 < quantum)
    (n : Nat) (s : RRState) (hs : rrAfter quantum n (rrInit tasks) = some s) :
    (∀ sl ∈ s.out, 0 ≤ sl.executedTo - sl.executedFrom ∧
        sl.executedTo - sl.executedFrom ≤ quantum) ∧
    (∀ t ∈ s.q, 0 ≤ t.burstTime) ∧
    ∀ t rest, s.q = t :: rest →
      ∃ s2, rrStep quantum s = some s2 ∧
        s2.out = s.out ++ [⟨t.id, s.currentTime, s.currentTime + min quantum t.burstTime⟩] ∧
        0 ≤ min quantum t.burstTime ∧ min quantum t.burstTime ≤ quantum ∧
        0 ≤ t.burstTime - min quantum t.burstTime ∧
        s2.q = if 0 < t.burstTime - min quantum t.burstTime then
                 rest ++ [{ t with burstTime := t.burstTime - min quantum t.burstTime }]
               else rest := by
  have hinv := rrAfter_invariant quantum
    (fun s => (∀ t ∈ s.q, 0 ≤ t.burstTime) ∧
      ∀ sl ∈ s.out, 0 ≤ sl.executedTo - sl.executedFrom ∧
        sl.executedTo - sl.executedFrom ≤ quantum)
    (rrStep_slices_bounded quantum hquantum) n (rrInit tasks) s
    ⟨hburst, by simp [rrInit]⟩ hs
  refine ⟨hinv.2, hinv.1, ?_⟩
  intro t rest hq
  have ht : 0 ≤ t.burstTime := hinv.1 t (hq ▸ List.mem_cons_self _ _)
  refine ⟨_, rrStep_cons quantum s t rest hq, rfl, ?_, ?_, ?_, rfl⟩ <;> omega

/-- Witness for C9: `twoTasks` with quantum 2 after three iterations, where the
head is task B with remaining burst 1. -/
theorem round_robin_slice_length_witness :
    (∀ t ∈ twoTasks, 0 ≤ t.burstTime) ∧ (0 : Int) < 2 ∧
    rrAfter 2 3 (rrInit twoTasks) = some twoTasksAfter3 ∧
    (∀ sl ∈ twoTasksAfter3.out, 0 ≤ sl.executedTo - sl.executedFrom ∧
        sl.executedTo - sl.executedFrom ≤ 2) ∧
    (∀ t ∈ twoTasksAfter3.q, 0 ≤ t.burstTime) ∧
    ∀ t rest, twoTasksAfter3.q = t :: rest →
      ∃ s2, rrStep 2 twoTasksAfter3 = some s2 ∧
        s2.out = twoTasksAfter3.out ++
          [⟨t.id, twoTasksAfter3.currentTime, twoTasksAfter3.currentTime + min 2 t.burstTime⟩] ∧
        0 ≤ min 2 t.burstTime ∧ min 2 t.burstTime ≤ 2 ∧
        0 ≤ t.burstTime - min 2 t.burstTime ∧
        s2.q = if 0 < t.burstTime - min 2 t.burstTime then
                 rest ++ [{ t with burstTime := t.burstTime - min 2 t.burstTime }]
               else rest :=
  ⟨by decide, by decide, by decide,
    round_robin_slice_length twoTasks 2 (by decide) (by decide) 3 twoTasksAfter3 (by decide)⟩

/-- C10: round robin with quantum 2 on two tasks A, B (in that order) with burst
times 5 and 3, whatever their other fields, run with any bound of at least five
iterations, prints exactly A `[0,2)`, B `[2,4)`, A `[4,6)`, B `[6,7)`, A `[7,8)`. -/
theorem round_robin_two_tasks (a b : Task) (k : Nat) :
    roundRobinScheduling [{ a with burstTime := 5 }, { b with burstTime := 3 }] 2 (5 + k) =
      some [⟨a.id, 0, 2⟩, ⟨b.id, 2, 4⟩, ⟨a.id, 4, 6⟩, ⟨b.id, 6, 7⟩, ⟨a.id, 7, 8⟩] := by
  have h : rrAfter 2 5 (rrInit [{ a with burstTime := 5 }, { b with burstTime := 3 }]) =
      some ⟨[], 8, [⟨a.id, 0, 2⟩, ⟨b.id, 2, 4⟩, ⟨a.id, 4, 6⟩, ⟨b.id, 6, 7⟩, ⟨a.id, 7, 8⟩]⟩ := by
    simp [rrAfter, rrStep, rrInit]
  simp [roundRobinScheduling, rrLoop_of_after 2 5 _ _ h rfl k]

/-! ## Helper lemmas: priority scheduling with aging -/

theorem maxElementAux_spec (comp : Task → Task → Bool) (hc : StrictWeakOrder comp) :
    ∀ (rest pre : List Task) (b : Task) (mid : List Task) (bi i : Nat),
      bi = pre.length → i = pre.length + 1 + mid.length →
      (∀ t ∈ pre, comp t b = true) → (∀ t ∈ mid, comp b t = false) →
      ∃ pre2 c post, maxElementAux comp rest (bi, b) i = (pre2.length, c) ∧
        pre ++ b :: (mid ++ rest) = pre2 ++ c :: post ∧
        (∀ t ∈ pre2, comp t c = true) ∧ (∀ t ∈ post, comp c t = false) := by
  intro rest
  induction rest with
  | nil =>
    intro pre b mid bi i hbi _ hpre hmid
    exact ⟨pre, b, mid, by simp [maxElementAux, hbi], by simp, hpre, hmid⟩
  | cons t rest ih =>
    intro pre b mid bi i hbi hi hpre hmid
    by_cases hbt : comp b t = true
    · obtain ⟨pre2, c, post, h1, h2, h3, h4⟩ :=
        ih (pre ++ b :: mid) t [] i (i + 1) (by simp [hi]; omega) (by simp [hi]; omega)
          (by
            intro u hu
            rcases List.mem_append.mp hu with hu | hu
            · exact hc.trans u b t (hpre u hu) hbt
            · rcases List.mem_cons.mp hu with hu | hu
              · subst hu; exact hbt
              · by_contra hut
                have hut : comp u t = false := by simpa using hut
                have := hc.negTrans b u t (hmid u hu) hut
                rw [hbt] at this
                exact Bool.noConfusion this)
          (by simp)
      refine ⟨pre2, c, post, ?_, ?_, h3, h4⟩
      · simp only [maxElementAux, hbt, if_true]
        exact h1
      · rw [← h2]
        simp
    · have hbt : comp b t = false := by simpa using hbt
      obtain ⟨pre2, c, post, h1, h2, h3, h4⟩ :=
        ih pre b (mid ++ [t]) bi (i + 1) hbi (by simp [hi]; omega) hpre
          (by
            intro u hu
            rcases List.mem_append.mp hu with hu | hu
            · exact hmid u hu
            · simp only [List.mem_singleton] at hu
              subst hu
              exact hbt)
      refine ⟨pre2, c, post, ?_, ?_, h3, h4⟩
      · simp only [maxElementAux, hbt]
        exact h1
      · rw [← h2]
        simp

/-- The result of `std::max_element` on a non-empty range: the first element
that no element exceeds; everything before it is strictly smaller. -/
theorem maxElement_spec (comp : Task → Task → Bool) (hc : StrictWeakOrder comp)
    (l : List Task) (hl : l ≠ []) :
    ∃ pre c post, maxElement comp l = some (pre.length, c) ∧ l = pre ++ c :: post ∧
      (∀ t ∈ pre, comp t c = true) ∧ (∀ t ∈ post, comp c t = false) := by
  cases l with
  | nil => exact absurd rfl hl
  | cons t rest =>
    obtain ⟨pre2, c, post, h1, h2, h3, h4⟩ :=
      maxElementAux_spec comp hc rest [] t [] 0 1 rfl rfl (by simp) (by simp)
    exact ⟨pre2, c, post, by simp [maxElement, h1], by simpa using h2, h3, h4⟩

theorem eraseIdx_length_append (pre : List Task) (c : Task) (post : List Task) :
    (pre ++ c :: post).eraseIdx pre.length = pre ++ post := by
  induction pre with
  | nil => rfl
  | cons a pre ih => simp [List.eraseIdx, ih]

theorem priorityStep_nil (s : PState) (h : s.tasks = []) : priorityStep s = none := by
  simp [priorityStep, h]

theorem priorityStep_idle (s : PState) (h : s.tasks ≠ [])
    (hnone : ∀ t ∈ s.tasks, ¬ t.arrivalTime ≤ s.currentTime) :
    priorityStep s = some { s with currentTime := s.currentTime + 1 } := by
  have hf : s.tasks.filter (fun t => decide (t.arrivalTime ≤ s.currentTime)) = [] :=
    List.filter_eq_nil_iff.mpr (fun t ht => by simpa using hnone t ht)
  simp [priorityStep, h, hf]

/-- The dispatch branch of the loop body: the aged vector splits around the
selected task `current`, everything before it has strictly smaller priority and
nothing after it has larger priority. -/
theorem priorityStep_dispatch (s : PState)
    (hready : ∃ t ∈ s.tasks, t.arrivalTime ≤ s.currentTime) :
    ∃ pre current post, ageReady s.currentTime s.tasks = pre ++ current :: post ∧
      (∀ t ∈ pre, t.priority < current.priority) ∧
      (∀ t ∈ post, t.priority ≤ current.priority) ∧
      priorityStep s = some
        { tasks := pre ++ post
          currentTime := s.currentTime + current.burstTime
          waitingTimes := s.waitingTimes ++
            [s.currentTime + current.burstTime - current.arrivalTime - current.burstTime]
          turnaroundTimes := s.turnaroundTimes ++
            [s.currentTime + current.burstTime - current.arrivalTime]
          rows := s.rows ++ [⟨current, s.currentTime,
            s.currentTime + current.burstTime - current.arrivalTime - current.burstTime,
            s.currentTime + current.burstTime - current.arrivalTime⟩] } := by
  obtain ⟨t0, ht0, harr⟩ := hready
  have hne : s.tasks ≠ [] := List.ne_nil_of_mem ht0
  have hf : s.tasks.filter (fun t => decide (t.arrivalTime ≤ s.currentTime)) ≠ [] :=
    List.ne_nil_of_mem (List.mem_filter.mpr ⟨ht0, by simpa using harr⟩)
  have hage : ageReady s.currentTime s.tasks ≠ [] := by
    simpa [ageReady] using hne
  obtain ⟨pre, c, post, h1, h2, h3, h4⟩ :=
    maxElement_spec byPriority byPriority_swo _ hage
  refine ⟨pre, c, post, h2, ?_, ?_, ?_⟩
  · intro t ht
    simpa [byPriority] using h3 t ht
  · intro t ht
    simpa [byPriority] using h4 t ht
  · have he : (ageReady s.currentTime s.tasks).eraseIdx pre.length = pre ++ post := by
      rw [h2, eraseIdx_length_append]
    simp [priorityStep, hne, hf, h1, he]

theorem priorityAfter_invariant (P : PState → Prop)
    (hstep : ∀ s s2, P s → priorityStep s = some s2 → P s2) :
    ∀ (n : Nat) (s s2 : PState), P s → priorityAfter n s = some s2 → P s2 := by
  intro n
  induction n with
  | zero =>
    intro s s2 hP h
    simp only [priorityAfter, Option.some.injEq] at h
    exact h ▸ hP
  | succ n ih =>
    intro s s2 hP h
    simp only [priorityAfter] at h
    cases hst : priorityStep s with
    | none => rw [hst] at h; simp at h
    | some s1 =>
      rw [hst] at h
      exact ih s1 s2 (hstep s s1 hP hst) h

/-- Every iteration is either an idle tick or a dispatch. -/
theorem priorityStep_cases (s s2 : PState) (h : priorityStep s = some s2) :
    (s2 = { s with currentTime := s.currentTime + 1 }) ∨
    ∃ pre current post, ageReady s.currentTime s.tasks = pre ++ current :: post ∧
      s2.tasks = pre ++ post ∧
      s2.rows = s.rows ++ [⟨current, s.currentTime,
        s.currentTime + current.burstTime - current.arrivalTime - current.burstTime,
        s.currentTime + current.burstTime - current.arrivalTime⟩] := by
  by_cases hready : ∃ t ∈ s.tasks, t.arrivalTime ≤ s.currentTime
  · right
    obtain ⟨pre, c, post, h1, _, _, h4⟩ := priorityStep_dispatch s hready
    rw [h4, Option.some.injEq] at h
    subst h
    exact ⟨pre, c, post, h1, rfl, rfl⟩
  · left
    have hne : s.tasks ≠ [] := by
      intro he
      rw [priorityStep_nil s he] at h
      simp at h
    have hnone : ∀ t ∈ s.tasks, ¬ t.arrivalTime ≤ s.currentTime :=
      fun t ht harr => hready ⟨t, ht, harr⟩
    rw [priorityStep_idle s hne hnone, Option.some.injEq] at h
    exact h.symm

theorem ageReady_arrival_sorted (c : Int) (l : List Task)
    (h : l.Pairwise (fun a b => a.arrivalTime ≤ b.arrivalTime)) :
    (ageReady c l).Pairwise (fun a b => a.arrivalTime ≤ b.arrivalTime) := by
  unfold ageReady
  rw [List.pairwise_map]
  refine h.imp ?_
  intro a b hab
  by_cases ha : a.arrivalTime ≤ c <;> by_cases hb : b.arrivalTime ≤ c <;> simp [ha, hb, hab]

/-- The working vector stays sorted by arrival time throughout the loop. -/
theorem priority_tasks_sorted (sort : (Task → Task → Bool) → List Task → List Task)
    (hsort : StdSort sort) (tasks : List Task) (n : Nat) (s : PState)
    (hs : priorityAfter n (priorityInit sort tasks) = some s) :
    s.tasks.Pairwise (fun a b => a.arrivalTime ≤ b.arrivalTime) := by
  refine priorityAfter_invariant
    (fun s => s.tasks.Pairwise (fun a b => a.arrivalTime ≤ b.arrivalTime)) ?_ n _ s ?_ hs
  · intro s s2 hP hst
    rcases priorityStep_cases s s2 hst with h | ⟨pre, c, post, h1, h2, _⟩
    · subst h
      exact hP
    · have := ageReady_arrival_sorted s.currentTime s.tasks hP
      rw [h1] at this
      rw [h2]
      exact this.sublist (List.Sublist.append_left (List.sublist_cons_self c post) pre)
  · exact (hsort byArrival byArrival_swo tasks).2.imp
      (fun {a b} h => (byArrival_false_iff a b).mp h)

theorem agingRounds_append (times : List Int) (c a : Int) :
    agingRounds (times ++ [c]) a = agingRounds times a + if a ≤ c then 1 else 0 := by
  unfold agingRounds
  by_cases h : a ≤ c <;> simp [List.filter_append, List.filter_cons, h]

theorem withoutAging_nil (t : Task) : withoutAging [] t = t := by
  cases t
  simp [withoutAging, agingRounds]

/-- Taking off the rounds including the one at clock `c` undoes the aging of
that round. -/
theorem withoutAging_ageReady (times : List Int) (c : Int) (l : List Task) :
    (ageReady c l).map (withoutAging (times ++ [c])) = l.map (withoutAging times) := by
  unfold ageReady
  rw [List.map_map]
  refine List.map_congr_left ?_
  intro t _
  cases t with
  | mk id arrivalTime burstTime priority startTime finishTime =>
    by_cases h : arrivalTime ≤ c
    · simp only [Function.comp, withoutAging, agingRounds_append, h, if_true, Task.mk.injEq,
        true_and, and_true]
      omega
    · simp only [Function.comp, withoutAging, agingRounds_append, h, if_false, Task.mk.injEq,
        true_and, and_true]
      omega

theorem originals_append (past : List Int) (rows : List Dispatch) (r : Dispatch) :
    originals past (rows ++ [r]) = originals past rows ++
      [withoutAging (past ++ rows.map (fun d => d.selectedAt) ++ [r.selectedAt]) r.current] := by
  induction rows generalizing past with
  | nil => simp [originals]
  | cons d rows ih => simp [originals, ih]

theorem originals_mem (rows : List Dispatch) :
    ∀ (past : List Int) (j : Nat) (r : Dispatch), rows[j]? = some r →
      withoutAging (past ++ (rows.take (j + 1)).map (fun d => d.selectedAt)) r.current ∈
        originals past rows := by
  induction rows with
  | nil => intro past j r h; simp at h
  | cons d rows ih =>
    intro past j r h
    cases j with
    | zero =>
      simp only [List.getElem?_cons_zero, Option.some.injEq] at h
      subst h
      simp [originals]
    | succ j =>
      simp only [List.getElem?_cons_succ] at h
      have := ih (past ++ [d.selectedAt]) j r h
      simp only [originals, List.take_succ_cons, List.map_cons, List.mem_cons]
      right
      simpa using this

/-- Throughout the loop, taking the aging rounds off the dispatched and the
waiting tasks gives back the input tasks. -/
theorem priority_originals_perm (sort : (Task → Task → Bool) → List Task → List Task)
    (hsort : StdSort sort) (tasks : List Task) (n : Nat) (s : PState)
    (hs : priorityAfter n (priorityInit sort tasks) = some s) :
    (originals [] s.rows ++
      s.tasks.map (withoutAging (s.rows.map (fun d => d.selectedAt)))).Perm tasks := by
  refine priorityAfter_invariant
    (fun s => (originals [] s.rows ++
      s.tasks.map (withoutAging (s.rows.map (fun d => d.selectedAt)))).Perm tasks)
    ?_ n _ s ?_ hs
  · intro s s2 hP hst
    rcases priorityStep_cases s s2 hst with h | ⟨pre, c, post, h1, h2, h3⟩
    · subst h
      exact hP
    · have hmap := withoutAging_ageReady (s.rows.map (fun d => d.selectedAt)) s.currentTime s.tasks
      rw [h1] at hmap
      rw [h2, h3, originals_append]
      simp only [List.nil_append, List.map_append, List.map_cons, List.map_nil]
      refine List.Perm.trans ?_ hP
      rw [← hmap, List.append_assoc]
      refine List.Perm.append_left _ ?_
      simp only [List.map_append, List.map_cons, List.singleton_append]
      exact List.perm_middle.symm
  · simp only [priorityInit, originals, List.map_nil, List.nil_append]
    rw [List.map_congr_left (fun t _ => withoutAging_nil t), List.map_id']
    exact (hsort byArrival byArrival_swo tasks).1

/-! ## C5, C6, C7: the selection loop of priority scheduling with aging -/

/-- C5 fails on the code: `std::max_element` scans the whole vector, not the
Ready subset.  On `lateArrival` (arrival and burst times non-negative) the first
iteration, at clock 0, dispatches task 2, which arrives at 10, and records the
waiting time -10. -/
theorem priority_dispatches_unarrived_task :
    StdSort insertionSortBy ∧
    (∀ t ∈ lateArrival, 0 ≤ t.arrivalTime ∧ 0 ≤ t.burstTime) ∧
    priorityStep (priorityInit insertionSortBy lateArrival) =
      some ⟨[⟨1, 0, 1, 2, -1, -1⟩], 1, [-10], [-9], [⟨⟨2, 10, 1, 100, -1, -1⟩, 0, -10, -9⟩]⟩ ∧
    prioritySchedulingWithAging insertionSortBy lateArrival 2 =
      some ⟨[], 2, [-10, 1], [-9, 2],
        [⟨⟨2, 10, 1, 100, -1, -1⟩, 0, -10, -9⟩, ⟨⟨1, 0, 1, 3, -1, -1⟩, 1, 1, 2⟩]⟩ :=
  ⟨insertionSortBy_stdSort, by decide, by decide, by decide⟩

/-- C6 as stated fails: on `longThenShort` task 2 (priority 1, arrival 1) is
selected at clock 5 with priority 2, although it has been Ready for the clock
values 1 to 5; the priority is aged once per dispatch round, not once per tick,
whether or not the tick of the selection is counted. -/
theorem priority_aging_per_tick_counterexample :
    StdSort insertionSortBy ∧
    prioritySchedulingWithAging insertionSortBy longThenShort 2 = some longThenShortFinal ∧
    ¬ AgedPerTick 0 longThenShort longThenShortFinal.rows ∧
    ¬ AgedPerTick 1 longThenShort longThenShortFinal.rows := by
  refine ⟨insertionSortBy_stdSort, by decide, ?_, ?_⟩ <;>
    · unfold AgedPerTick
      decide

/-- C6 (amended): in every state the selection loop reaches, for every sort
meeting the `std::sort` guarantee, the priority a dispatched task carries is its
original priority plus the number of dispatch rounds, up to and including its
own, at whose clock value it was Ready: taking that number off gives an input
task, and doing so for all dispatched tasks and (with all rounds so far) for all
waiting tasks gives a permutation of the input. -/
theorem priority_aging_per_round (sort : (Task → Task → Bool) → List Task → List Task)
    (hsort : StdSort sort) (tasks : List Task) (n : Nat) (s : PState)
    (hs : priorityAfter n (priorityInit sort tasks) = some s) :
    (originals [] s.rows ++
        s.tasks.map (withoutAging (s.rows.map (fun d => d.selectedAt)))).Perm tasks ∧
      ∀ j r, s.rows[j]? = some r →
        withoutAging ((s.rows.take (j + 1)).map (fun d => d.selectedAt)) r.current ∈ tasks := by
  have hp := priority_originals_perm sort hsort tasks n s hs
  refine ⟨hp, ?_⟩
  intro j r hj
  have := originals_mem s.rows [] j r hj
  simp only [List.nil_append] at this
  exact hp.subset (List.mem_append_left _ this)

/-- Witness for C6 (amended): `longThenShort` after both dispatches. -/
theorem priority_aging_per_round_witness :
    StdSort insertionSortBy ∧
    priorityAfter 2 (priorityInit insertionSortBy longThenShort) = some longThenShortFinal ∧
    (originals [] longThenShortFinal.rows ++
        longThenShortFinal.tasks.map
          (withoutAging (longThenShortFinal.rows.map (fun d => d.selectedAt)))).Perm
      longThenShort ∧
      ∀ j r, longThenShortFinal.rows[j]? = some r →
        withoutAging ((longThenShortFinal.rows.take (j + 1)).map (fun d => d.selectedAt))
          r.current ∈ longThenShort :=
  ⟨insertionSortBy_stdSort, by decide,
    priority_aging_per_round insertionSortBy insertionSortBy_stdSort longThenShort 2
      longThenShortFinal (by decide)⟩

/-- C7 as stated fails: `tieWorkload` has distinct ids; after the first
dispatch tasks 2 and 1 are both Ready at clock 5 and both have priority 2 after
aging, and the loop dispatches task 2, not the smaller id 1. -/
theorem priority_tie_break_counterexample :
    StdSort insertionSortBy ∧ (tieWorkload.map (fun t => t.id)).Nodup ∧
    priorityAfter 1 (priorityInit insertionSortBy tieWorkload) = some tieState ∧
    ageReady tieState.currentTime tieState.tasks =
      [⟨2, 1, 1, 2, -1, -1⟩, ⟨1, 2, 1, 2, -1, -1⟩] ∧
    (∀ t ∈ tieState.tasks, t.arrivalTime ≤ tieState.currentTime) ∧
    (priorityStep tieState).map (fun s => s.rows.map (fun d => d.current)) =
      some [⟨3, 0, 5, 11, -1, -1⟩, ⟨2, 1, 1, 2, -1, -1⟩] ∧
    ¬ ∀ t ∈ ageReady tieState.currentTime tieState.tasks,
        t.priority = 2 → (2 : Int) ≤ t.id :=
  ⟨insertionSortBy_stdSort, by decide, by decide, by decide, by decide, by decide, by decide⟩

/-- C7 (amended): in every state the selection loop reaches in which some task
is Ready, for every sort meeting the `std::sort` guarantee, the task dispatched
is the first one in the working vector, which is kept in arrival-time order,
among those with maximal priority after aging: every task before it has strictly
smaller priority, no task after it has larger priority, and every task sharing
its priority arrives no earlier. Ids play no part. -/
theorem priority_tie_break_scan_order (sort : (Task → Task → Bool) → List Task → List Task)
    (hsort : StdSort sort) (tasks : List Task) (n : Nat) (s : PState)
    (hs : priorityAfter n (priorityInit sort tasks) = some s)
    (hready : ∃ t ∈ s.tasks, t.arrivalTime ≤ s.currentTime) :
    ∃ pre current post s2, ageReady s.currentTime s.tasks = pre ++ current :: post ∧
      priorityStep s = some s2 ∧ s2.tasks = pre ++ post ∧
      s2.rows = s.rows ++ [⟨current, s.currentTime,
        s.currentTime + current.burstTime - current.arrivalTime - current.burstTime,
        s.currentTime + current.burstTime - current.arrivalTime⟩] ∧
      (∀ t ∈ pre, t.priority < current.priority) ∧
      (∀ t ∈ post, t.priority ≤ current.priority) ∧
      ∀ t ∈ pre ++ current :: post, t.priority = current.priority →
        current.arrivalTime ≤ t.arrivalTime := by
  obtain ⟨pre, c, post, h1, h2, h3, h4⟩ := priorityStep_dispatch s hready
  refine ⟨pre, c, post, _, h1, h4, rfl, rfl, h2, h3, ?_⟩
  have hsorted := ageReady_arrival_sorted s.currentTime s.tasks
    (priority_tasks_sorted sort hsort tasks n s hs)
  rw [h1, List.pairwise_append] at hsorted
  intro t ht hprio
  rcases List.mem_append.mp ht with ht | ht
  · have := h2 t ht
    omega
  · rcases List.mem_cons.mp ht with ht | ht
    · subst ht
      exact le_refl _
    · exact (List.pairwise_cons.mp hsorted.2.1).1 t ht

/-- Witness for C7 (amended): `tieWorkload` after the first dispatch. -/
theorem priority_tie_break_scan_order_witness :
    StdSort insertionSortBy ∧
    priorityAfter 1 (priorityInit insertionSortBy tieWorkload) = some tieState ∧
    (∃ t ∈ tieState.tasks, t.arrivalTime ≤ tieState.currentTime) ∧
    ∃ pre current post s2,
      ageReady tieState.currentTime tieState.tasks = pre ++ current :: post ∧
      priorityStep tieState = some s2 ∧ s2.tasks = pre ++ post ∧
      s2.rows = tieState.rows ++ [⟨current, tieState.currentTime,
        tieState.currentTime + current.burstTime - current.arrivalTime - current.burstTime,
        tieState.currentTime + current.burstTime - current.arrivalTime⟩] ∧
      (∀ t ∈ pre, t.priority < current.priority) ∧
      (∀ t ∈ post, t.priority ≤ current.priority) ∧
      ∀ t ∈ pre ++ current :: post, t.priority = current.priority →
        current.arrivalTime ≤ t.arrivalTime :=
  ⟨insertionSortBy_stdSort, by decide, by decide,
    priority_tie_break_scan_order insertionSortBy insertionSortBy_stdSort tieWorkload 1
      tieState (by decide) (by decide)⟩

/-! ## Helper lemmas: round-robin termination and zero bursts -/

theorem rrAfter_exits (quantum : Int) (hquantum : 0 < quantum) :
    ∀ (fuel : Nat) (s : RRState), rrFuel s.q ≤ fuel →
      ∃ n s2, n ≤ fuel ∧ rrAfter quantum n s = some s2 ∧ s2.q = [] := by
  intro fuel
  induction fuel with
  | zero =>
    intro s h
    exact ⟨0, s, le_refl _, rfl, rrFuel_eq_zero _ (Nat.le_zero.mp h)⟩
  | succ fuel ih =>
    intro s h
    cases hst : rrStep quantum s with
    | none =>
      have hq : s.q = [] := by
        cases hq : s.q with
        | nil => rfl
        | cons t rest => rw [rrStep_cons quantum s t rest hq] at hst; simp at hst
      exact ⟨0, s, Nat.zero_le _, rfl, hq⟩
    | some s1 =>
      have hlt := rrStep_fuel_decreases quantum hquantum s s1 hst
      obtain ⟨n, s2, hle, hn, hq⟩ := ih s1 (by omega)
      exact ⟨n + 1, s2, by omega, by simp [rrAfter, hst, hn], hq⟩

theorem rrMeasure_eq_fuel (q : List Task) (h : ∀ t ∈ q, 0 ≤ t.burstTime) :
    rrMeasure q = (rrFuel q : Int) := by
  induction q with
  | nil => simp [rrMeasure, rrFuel]
  | cons t rest ih =>
    have ht : 0 ≤ t.burstTime := h t (List.mem_cons_self _ _)
    have hrest := ih (fun u hu => h u (List.mem_cons_of_mem _ hu))
    simp only [rrMeasure, rrFuel, List.map_cons, List.sum_cons, List.length_cons] at hrest ⊢
    push_cast at hrest ⊢
    rw [Int.toNat_of_nonneg ht]
    omega

theorem rrAfter_burst_nonneg (tasks : List Task) (quantum : Int)
    (hburst : ∀ t ∈ tasks, 0 ≤ t.burstTime) (n : Nat) (s : RRState)
    (hs : rrAfter quantum n (rrInit tasks) = some s) : ∀ t ∈ s.q, 0 ≤ t.burstTime :=
  rrAfter_invariant quantum (fun s => ∀ t ∈ s.q, 0 ≤ t.burstTime)
    (fun s s2 h hst => rrStep_burst_nonneg quantum s s2 h hst) n (rrInit tasks) s hburst hs

/-- What an iteration does with the head of the queue: it is dropped, or put
back at the tail with a positive burst. -/
theorem rrStep_requeue (quantum : Int) (s : RRState) (t : Task) (rest : List Task)
    (hq : s.q = t :: rest) :
    ∃ s2, rrStep quantum s = some s2 ∧
      (s2.q = rest ∨ ∃ t2, s2.q = rest ++ [t2] ∧ t2.id = t.id ∧ 0 < t2.burstTime ∧
        t2.burstTime = t.burstTime - min quantum t.burstTime) := by
  refine ⟨_, rrStep_cons quantum s t rest hq, ?_⟩
  by_cases h : 0 < t.burstTime - min quantum t.burstTime
  · right
    exact ⟨{ t with burstTime := t.burstTime - min quantum t.burstTime }, by simp [h], rfl, h, rfl⟩
  · left
    simp [h]

theorem filter_id_length_of_nodup (l : List Task) (hn : (l.map (fun t => t.id)).Nodup)
    (t : Task) (ht : t ∈ l) : (l.filter (fun u => decide (u.id = t.id))).length = 1 := by
  induction l with
  | nil => simp at ht
  | cons u rest ih =>
    simp only [List.map_cons, List.nodup_cons, List.mem_map, not_exists, not_and] at hn
    rcases List.mem_cons.mp ht with h | h
    · subst h
      have : rest.filter (fun u => decide (u.id = t.id)) = [] :=
        List.filter_eq_nil_iff.mpr (fun w hw => by simpa using hn.1 w hw)
      simp [List.filter_cons, this]
    · have hne : u.id ≠ t.id := fun e => hn.1 t h e.symm
      simp [List.filter_cons, hne, ih hn.2 h]

theorem eq_of_id_eq_of_nodup (l : List Task) (hn : (l.map (fun t => t.id)).Nodup)
    (t u : Task) (ht : t ∈ l) (hu : u ∈ l) (h : u.id = t.id) : u = t := by
  induction l with
  | nil => simp at ht
  | cons v rest ih =>
    simp only [List.map_cons, List.nodup_cons, List.mem_map, not_exists, not_and] at hn
    rcases List.mem_cons.mp ht with h1 | h1 <;> rcases List.mem_cons.mp hu with h2 | h2
    · rw [h1, h2]
    · subst h1
      exact absurd h (hn.1 u h2)
    · subst h2
      exact absurd h.symm (hn.1 t h1)
    · exact ih hn.2 h1 h2

/-- For a positive quantum, a task id whose queued copies all have burst 0 gets
one zero-length slice per copy and is never queued again. -/
theorem rrStep_zero_burst (quantum : Int) (hquantum : 0 < quantum) (x : Int) (k : Nat)
    (s s2 : RRState)
    (h : (∀ u ∈ s.q, u.id = x → u.burstTime = 0) ∧
      (s.out.filter (fun sl => decide (sl.id = x))).length +
        (s.q.filter (fun u => decide (u.id = x))).length = k ∧
      ∀ sl ∈ s.out, sl.id = x → sl.executedFrom = sl.executedTo)
    (hst : rrStep quantum s = some s2) :
    (∀ u ∈ s2.q, u.id = x → u.burstTime = 0) ∧
      (s2.out.filter (fun sl => decide (sl.id = x))).length +
        (s2.q.filter (fun u => decide (u.id = x))).length = k ∧
      ∀ sl ∈ s2.out, sl.id = x → sl.executedFrom = sl.executedTo := by
  obtain ⟨h1, h2, h3⟩ := h
  cases hq : s.q with
  | nil => rw [rrStep_nil quantum s hq] at hst; simp at hst
  | cons t rest =>
    rw [rrStep_cons quantum s t rest hq, Option.some.injEq] at hst
    subst hst
    rw [hq] at h1 h2
    have hrest : ∀ u ∈ rest, u.id = x → u.burstTime = 0 :=
      fun u hu => h1 u (List.mem_cons_of_mem _ hu)
    by_cases hx : t.id = x
    · have hb : t.burstTime = 0 := h1 t (List.mem_cons_self _ _) hx
      have hmin : min quantum 0 = 0 := by omega
      simp only [hb, hmin, sub_zero, lt_irrefl, if_false, add_zero]
      refine ⟨hrest, ?_, ?_⟩
      · simp only [List.filter_append, List.filter_cons, hx, decide_True, if_true,
          List.filter_nil, List.length_append, List.length_cons, List.length_nil] at h2 ⊢
        omega
      · intro sl hsl hid
        rcases List.mem_append.mp hsl with hsl | hsl
        · exact h3 sl hsl hid
        · simp only [List.mem_singleton] at hsl
          subst hsl
          rfl
    · refine ⟨?_, ?_, ?_⟩
      · intro u hu hid
        split at hu
        · rcases List.mem_append.mp hu with hu | hu
          · exact hrest u hu hid
          · simp only [List.mem_singleton] at hu
            subst hu
            exact absurd hid hx
        · exact hrest u hu hid
      · simp only [List.filter_append, List.filter_cons, hx, decide_False, if_false,
          List.filter_nil, List.length_append, List.length_nil, add_zero,
          Bool.false_eq_true] at h2 ⊢
        split
        · simp only [List.filter_append, List.filter_cons, hx, decide_False,
            Bool.false_eq_true, if_false, List.filter_nil, List.length_append,
            List.length_nil, add_zero]
          exact h2
        · exact h2
      · intro sl hsl hid
        rcases List.mem_append.mp hsl with hsl | hsl
        · exact h3 sl hsl hid
        · simp only [List.mem_singleton] at hsl
          subst hsl
          exact absurd hid hx

/-! ## C11, C12, C13: round-robin termination, quantum validation, zero bursts -/

/-- C11: for every task list with non-negative burst times and every quantum
`q > 0`, the round-robin loop terminates: the queue is empty after at most
`rrFuel tasks` dequeues and the bounded run returns; and in every state the loop
reaches, a dequeue either drops the head task or puts it back with a strictly
smaller (still positive) remaining burst, and the measure `sum of remaining
bursts + queue length`, which is never negative, strictly decreases. -/
theorem round_robin_terminates (tasks : List Task) (quantum : Int)
    (hburst : ∀ t ∈ tasks, 0 ≤ t.burstTime) (hquantum : 0 < quantum) :
    (∃ n s, n ≤ rrFuel tasks ∧ rrAfter quantum n (rrInit tasks) = some s ∧ s.q = []) ∧
    (∀ fuel, rrFuel tasks ≤ fuel → ∃ out, roundRobinScheduling tasks quantum fuel = some out) ∧
    ∀ n s, rrAfter quantum n (rrInit tasks) = some s →
      0 ≤ rrMeasure s.q ∧
      ∀ t rest, s.q = t :: rest →
        ∃ s2, rrStep quantum s = some s2 ∧
          (s2.q = rest ∨ ∃ t2, s2.q = rest ++ [t2] ∧ t2.id = t.id ∧ 0 < t2.burstTime ∧
            t2.burstTime < t.burstTime) ∧
          rrMeasure s2.q < rrMeasure s.q := by
  refine ⟨rrAfter_exits quantum hquantum (rrFuel tasks) (rrInit tasks) (le_refl _), ?_, ?_⟩
  · intro fuel hfuel
    obtain ⟨n, s2, _, _, hl⟩ := rrLoop_terminates quantum hquantum fuel (rrInit tasks) hfuel
    exact ⟨s2.out, by simp [roundRobinScheduling, hl]⟩
  · intro n s hs
    have hnn := rrAfter_burst_nonneg tasks quantum hburst n s hs
    refine ⟨by rw [rrMeasure_eq_fuel s.q hnn]; exact Int.ofNat_nonneg _, ?_⟩
    intro t rest hq
    obtain ⟨s2, hst, hcase⟩ := rrStep_requeue quantum s t rest hq
    have ht : 0 ≤ t.burstTime := hnn t (hq ▸ List.mem_cons_self _ _)
    refine ⟨s2, hst, ?_, ?_⟩
    · rcases hcase with h | ⟨t2, h1, h2, h3, h4⟩
      · exact Or.inl h
      · exact Or.inr ⟨t2, h1, h2, h3, by omega⟩
    · rw [rrMeasure_eq_fuel s.q hnn,
        rrMeasure_eq_fuel s2.q (rrStep_burst_nonneg quantum s s2 hnn hst)]
      exact_mod_cast rrStep_fuel_decreases quantum hquantum s s2 hst

/-- Witness for C11: `twoTasks` with quantum 2. -/
theorem round_robin_terminates_witness :
    (∀ t ∈ twoTasks, 0 ≤ t.burstTime) ∧ (0 : Int) < 2 ∧
    (∃ n s, n ≤ rrFuel twoTasks ∧ rrAfter 2 n (rrInit twoTasks) = some s ∧ s.q = []) ∧
    (∀ fuel, rrFuel twoTasks ≤ fuel → ∃ out, roundRobinScheduling twoTasks 2 fuel = some out) ∧
    ∀ n s, rrAfter 2 n (rrInit twoTasks) = some s →
      0 ≤ rrMeasure s.q ∧
      ∀ t rest, s.q = t :: rest →
        ∃ s2, rrStep 2 s = some s2 ∧
          (s2.q = rest ∨ ∃ t2, s2.q = rest ++ [t2] ∧ t2.id = t.id ∧ 0 < t2.burstTime ∧
            t2.burstTime < t.burstTime) ∧
          rrMeasure s2.q < rrMeasure s.q :=
  ⟨by decide, by decide, round_robin_terminates twoTasks 2 (by decide) (by decide)⟩

/-- C12 as stated fails: with quantum 0 the call is not rejected; the first
iteration dequeues the task of `oneTask`, prints the slice `[0,0)` and puts the
task back. -/
theorem round_robin_invalid_quantum_counterexample :
    (0 : Int) ≤ 0 ∧
    rrAfter 0 1 (rrInit oneTask) = some ⟨oneTask, 0, [⟨1, 0, 0⟩]⟩ ∧
    ¬ ∀ n s, rrAfter 0 n (rrInit oneTask) = some s → s.out = [] := by
  refine ⟨le_refl _, by decide, ?_⟩
  intro h
  have := h 1 ⟨oneTask, 0, [⟨1, 0, 0⟩]⟩ (by decide)
  exact absurd this (by decide)

/-- C12 (amended): `roundRobinScheduling` does not validate the quantum.  For
every quantum `q ≤ 0` an empty task list gives an empty output, and a non-empty
list enters the loop: the first iteration dequeues the head task and prints a
slice from 0 of length `min q burst ≤ 0`; every state reached after `n`
iterations has printed exactly `n` slices, none of which ends after it starts. -/
theorem round_robin_no_quantum_check (quantum : Int) (hquantum : quantum ≤ 0) :
    (∀ fuel, roundRobinScheduling [] quantum fuel = some []) ∧
    (∀ t rest, ∃ s2, rrStep quantum (rrInit (t :: rest)) = some s2 ∧
      s2.out = [⟨t.id, 0, min quantum t.burstTime⟩] ∧ min quantum t.burstTime ≤ 0) ∧
    ∀ tasks n s, rrAfter quantum n (rrInit tasks) = some s →
      s.out.length = n ∧ ∀ sl ∈ s.out, sl.executedTo ≤ sl.executedFrom := by
  refine ⟨?_, ?_, ?_⟩
  · intro fuel
    cases fuel <;> simp [roundRobinScheduling, rrLoop, rrInit, rrStep]
  · intro t rest
    refine ⟨_, rrStep_cons quantum (rrInit (t :: rest)) t rest rfl, by simp [rrInit], ?_⟩
    omega
  · intro tasks n s hs
    have key : ∀ (n : Nat) (s0 s : RRState), rrAfter quantum n s0 = some s →
        s.out.length = s0.out.length + n ∧
          ((∀ sl ∈ s0.out, sl.executedTo ≤ sl.executedFrom) →
            ∀ sl ∈ s.out, sl.executedTo ≤ sl.executedFrom) := by
      intro n
      induction n with
      | zero =>
        intro s0 s h
        simp only [rrAfter, Option.some.injEq] at h
        subst h
        exact ⟨rfl, fun h => h⟩
      | succ n ih =>
        intro s0 s h
        simp only [rrAfter] at h
        cases hq : s0.q with
        | nil => rw [rrStep_nil quantum s0 hq] at h; simp at h
        | cons t rest =>
          rw [rrStep_cons quantum s0 t rest hq] at h
          obtain ⟨hlen, hall⟩ := ih _ s h
          refine ⟨by simp at hlen; omega, ?_⟩
          intro h0
          refine hall ?_
          intro sl hsl
          rcases List.mem_append.mp hsl with hsl | hsl
          · exact h0 sl hsl
          · simp only [List.mem_singleton] at hsl
            subst hsl
            simp only
            omega
    have := key n (rrInit tasks) s hs
    exact ⟨by simpa [rrInit] using this.1, this.2 (by simp [rrInit])⟩

/-- Witness for C12 (amended): quantum 0. -/
theorem round_robin_no_quantum_check_witness :
    (0 : Int) ≤ 0 ∧
    (∀ fuel, roundRobinScheduling [] 0 fuel = some []) ∧
    (∀ t rest, ∃ s2, rrStep 0 (rrInit (t :: rest)) = some s2 ∧
      s2.out = [⟨t.id, 0, min 0 t.burstTime⟩] ∧ min 0 t.burstTime ≤ 0) ∧
    ∀ tasks n s, rrAfter 0 n (rrInit tasks) = some s →
      s.out.length = n ∧ ∀ sl ∈ s.out, sl.executedTo ≤ sl.executedFrom :=
  ⟨le_refl _, round_robin_no_quantum_check 0 (le_refl _)⟩

/-- C13: for every quantum `q > 0` and every task list, in every state the loop
reaches: a head task with burst 0 is dropped, the clock stays where it is and
the slice printed for it has `from = to`; whatever task an iteration puts back
on the queue has a positive burst; and when ids are distinct, an input task with
burst 0 has, between queue and output, exactly one occurrence (it is never
queued a second time) and all its slices have `from = to`.  The bound
`burstTime ≥ 0` of the claim is not needed. -/
theorem round_robin_zero_burst (tasks : List Task) (quantum : Int) (hquantum : 0 < quantum)
    (n : Nat) (s : RRState) (hs : rrAfter quantum n (rrInit tasks) = some s) :
    (∀ t rest, s.q = t :: rest → t.burstTime = 0 →
      rrStep quantum s =
        some ⟨rest, s.currentTime, s.out ++ [⟨t.id, s.currentTime, s.currentTime⟩]⟩) ∧
    (∀ t rest, s.q = t :: rest → ∃ s2, rrStep quantum s = some s2 ∧
      (s2.q = rest ∨ ∃ t2, s2.q = rest ++ [t2] ∧ t2.id = t.id ∧ 0 < t2.burstTime)) ∧
    ((tasks.map (fun t => t.id)).Nodup → ∀ t ∈ tasks, t.burstTime = 0 →
      (s.out.filter (fun sl => decide (sl.id = t.id))).length +
          (s.q.filter (fun u => decide (u.id = t.id))).length = 1 ∧
        ∀ sl ∈ s.out, sl.id = t.id → sl.executedFrom = sl.executedTo) := by
  refine ⟨?_, ?_, ?_⟩
  · intro t rest hq hb
    have hmin : min quantum 0 = 0 := by omega
    rw [rrStep_cons quantum s t rest hq]
    simp [hb, hmin]
  · intro t rest hq
    obtain ⟨s2, hst, hcase⟩ := rrStep_requeue quantum s t rest hq
    refine ⟨s2, hst, ?_⟩
    rcases hcase with h | ⟨t2, h1, h2, h3, _⟩
    · exact Or.inl h
    · exact Or.inr ⟨t2, h1, h2, h3⟩
  · intro hnd t ht hb
    have hinv := rrAfter_invariant quantum
      (fun s => (∀ u ∈ s.q, u.id = t.id → u.burstTime = 0) ∧
        (s.out.filter (fun sl => decide (sl.id = t.id))).length +
          (s.q.filter (fun u => decide (u.id = t.id))).length = 1 ∧
        ∀ sl ∈ s.out, sl.id = t.id → sl.executedFrom = sl.executedTo)
      (rrStep_zero_burst quantum hquantum t.id 1) n (rrInit tasks) s ?_ hs
    · exact hinv.2
    · refine ⟨?_, ?_, ?_⟩
      · intro u hu hid
        rw [eq_of_id_eq_of_nodup tasks hnd t u ht hu hid]
        exact hb
      · simp [rrInit, filter_id_length_of_nodup tasks hnd t ht]
      · simp [rrInit]

/-- Witness for C13: `zeroBurstTasks` with quantum 2 after one iteration, where
the task with burst 0 is at the head of the queue. -/
theorem round_robin_zero_burst_witness :
    (∀ t ∈ zeroBurstTasks, 0 ≤ t.burstTime) ∧ (0 : Int) < 2 ∧
    rrAfter 2 1 (rrInit zeroBurstTasks) = some zeroBurstAfter1 ∧
    (∀ t rest, zeroBurstAfter1.q = t :: rest → t.burstTime = 0 →
      rrStep 2 zeroBurstAfter1 =
        some ⟨rest, zeroBurstAfter1.currentTime,
          zeroBurstAfter1.out ++
            [⟨t.id, zeroBurstAfter1.currentTime, zeroBurstAfter1.currentTime⟩]⟩) ∧
    (∀ t rest, zeroBurstAfter1.q = t :: rest → ∃ s2, rrStep 2 zeroBurstAfter1 = some s2 ∧
      (s2.q = rest ∨ ∃ t2, s2.q = rest ++ [t2] ∧ t2.id = t.id ∧ 0 < t2.burstTime)) ∧
    ((zeroBurstTasks.map (fun t => t.id)).Nodup → ∀ t ∈ zeroBurstTasks, t.burstTime = 0 →
      (zeroBurstAfter1.out.filter (fun sl => decide (sl.id = t.id))).length +
          (zeroBurstAfter1.q.filter (fun u => decide (u.id = t.id))).length = 1 ∧
        ∀ sl ∈ zeroBurstAfter1.out, sl.id = t.id → sl.executedFrom = sl.executedTo) :=
  ⟨by decide, by decide, by decide,
    round_robin_zero_burst zeroBurstTasks 2 (by decide) 1 zeroBurstAfter1 (by decide)⟩

/-! ## C14, C15, C18: the caller's vector, the averages, the selected priority -/

/-- C14 fails on the code for `fcfsScheduling`: it takes the vector by reference
and sorts it in place.  On the scenario the caller's vector comes back in the
order 2, 1, 3 instead of 1, 2, 3, and round robin run on it afterwards starts
with task 2 instead of task 1. -/
theorem fcfs_reorders_caller_vector :
    StdSort insertionSortBy ∧
    (fcfsScheduling insertionSortBy scenario).1 =
      [⟨2, 0, 2, 2, -1, -1⟩, ⟨1, 2, 4, 1, -1, -1⟩, ⟨3, 4, 1, 1, -1, -1⟩] ∧
    (fcfsScheduling insertionSortBy scenario).1 ≠ scenario ∧
    roundRobinScheduling scenario 2 10 =
      some [⟨1, 0, 2⟩, ⟨2, 2, 4⟩, ⟨3, 4, 5⟩, ⟨1, 5, 7⟩] ∧
    roundRobinScheduling (fcfsScheduling insertionSortBy scenario).1 2 10 =
      some [⟨2, 0, 2⟩, ⟨1, 2, 4⟩, ⟨3, 4, 5⟩, ⟨1, 5, 7⟩] :=
  ⟨insertionSortBy_stdSort, by decide, by decide, by decide, by decide⟩

/-- C15 as stated fails: on an empty task list the selection loop is not
entered, both vectors of metrics are empty, and the averaging step divides
`0.0` by `0`; the reported averages are NaN, not a guarded result. -/
theorem priority_empty_averages_counterexample :
    StdSort insertionSortBy ∧
    prioritySchedulingWithAging insertionSortBy [] 0 = some ⟨[], 0, [], [], []⟩ ∧
    priorityAverages insertionSortBy [] 0 = some (DoubleQuotient.nan, DoubleQuotient.nan) ∧
    ¬ ∀ r, priorityAverages insertionSortBy [] 0 = some r →
        r.1 ≠ DoubleQuotient.nan ∧ r.2 ≠ DoubleQuotient.nan := by
  refine ⟨insertionSortBy_stdSort, by decide, by decide, ?_⟩
  intro h
  exact (h (DoubleQuotient.nan, DoubleQuotient.nan) (by decide)).1 rfl

/-- C15 (amended): when `prioritySchedulingWithAging` is given an empty task
list, for every sort meeting the `std::sort` guarantee and every bound on the
iterations, the selection loop exits at once with nothing recorded and the
averaging step, which has no guard, divides `0.0` by `0`: both reported averages
are NaN. -/
theorem priority_empty_averages_nan (sort : (Task → Task → Bool) → List Task → List Task)
    (hsort : StdSort sort) (fuel : Nat) :
    prioritySchedulingWithAging sort [] fuel = some ⟨[], 0, [], [], []⟩ ∧
      priorityAverages sort [] fuel = some (DoubleQuotient.nan, DoubleQuotient.nan) := by
  have hnil : sort byArrival [] = [] := (hsort byArrival byArrival_swo []).1.eq_nil
  have hrun : prioritySchedulingWithAging sort [] fuel = some ⟨[], 0, [], [], []⟩ := by
    cases fuel <;>
      simp [prioritySchedulingWithAging, priorityLoop, priorityInit, hnil, priorityStep]
  refine ⟨hrun, ?_⟩
  simp [priorityAverages, hrun, averages, divideDouble]

/-- Witness for C15 (amended) with insertion sort. -/
theorem priority_empty_averages_nan_witness :
    StdSort insertionSortBy ∧
    prioritySchedulingWithAging insertionSortBy [] 3 = some ⟨[], 0, [], [], []⟩ ∧
      priorityAverages insertionSortBy [] 3 =
        some (DoubleQuotient.nan, DoubleQuotient.nan) :=
  ⟨insertionSortBy_stdSort, priority_empty_averages_nan insertionSortBy insertionSortBy_stdSort 3⟩

/-- C18: at every selection step of `prioritySchedulingWithAging`, that is in
every state of the loop in which some remaining task is Ready, the loop
dispatches a task whose priority after aging is at least the priority after
aging of every remaining task, in particular of every Ready one: the larger
integer wins. -/
theorem priority_selects_largest (s : PState)
    (hready : ∃ t ∈ s.tasks, t.arrivalTime ≤ s.currentTime) :
    ∃ pre current post s2, ageReady s.currentTime s.tasks = pre ++ current :: post ∧
      priorityStep s = some s2 ∧
      s2.rows = s.rows ++ [⟨current, s.currentTime,
        s.currentTime + current.burstTime - current.arrivalTime - current.burstTime,
        s.currentTime + current.burstTime - current.arrivalTime⟩] ∧
      (∀ t ∈ ageReady s.currentTime s.tasks, t.priority ≤ current.priority) ∧
      ∀ t ∈ ageReady s.currentTime s.tasks, t.arrivalTime ≤ s.currentTime →
        t.priority ≤ current.priority := by
  obtain ⟨pre, c, post, h1, h2, h3, h4⟩ := priorityStep_dispatch s hready
  have hall : ∀ t ∈ ageReady s.currentTime s.tasks, t.priority ≤ c.priority := by
    intro t ht
    rw [h1] at ht
    rcases List.mem_append.mp ht with ht | ht
    · exact le_of_lt (h2 t ht)
    · rcases List.mem_cons.mp ht with ht | ht
      · subst ht
        exact le_refl _
      · exact h3 t ht
  exact ⟨pre, c, post, _, h1, h4, rfl, hall, fun t ht _ => hall t ht⟩

/-- Witness for C18: `tieWorkload` after the first dispatch. -/
theorem priority_selects_largest_witness :
    (∃ t ∈ tieState.tasks, t.arrivalTime ≤ tieState.currentTime) ∧
    ∃ pre current post s2,
      ageReady tieState.currentTime tieState.tasks = pre ++ current :: post ∧
      priorityStep tieState = some s2 ∧
      s2.rows = tieState.rows ++ [⟨current, tieState.currentTime,
        tieState.currentTime + current.burstTime - current.arrivalTime - current.burstTime,
        tieState.currentTime + current.burstTime - current.arrivalTime⟩] ∧
      (∀ t ∈ ageReady tieState.currentTime tieState.tasks, t.priority ≤ current.priority) ∧
      ∀ t ∈ ageReady tieState.currentTime tieState.tasks,
        t.arrivalTime ≤ tieState.currentTime → t.priority ≤ current.priority :=
  ⟨by decide, priority_selects_largest tieState (by decide)⟩

/-! ## Helper lemmas: the round-robin timeline -/

theorem chained_append (c : Int) (out : List Slice) (sl : Slice) (h : Chained c out)
    (hfrom : sl.executedFrom = endOf c out) (hle : sl.executedFrom ≤ sl.executedTo) :
    Chained c (out ++ [sl]) ∧ endOf c (out ++ [sl]) = sl.executedTo := by
  induction out generalizing c with
  | nil => exact ⟨⟨hfrom, hle, trivial⟩, rfl⟩
  | cons a rest ih =>
    obtain ⟨h1, h2, h3⟩ := h
    obtain ⟨h4, h5⟩ := ih a.executedTo h3 hfrom
    exact ⟨⟨h1, h2, h4⟩, h5⟩

theorem chained_end_ge (c : Int) (out : List Slice) (h : Chained c out) :
    ∀ sl ∈ out, c ≤ sl.executedTo := by
  induction out generalizing c with
  | nil => intro sl hsl; simp at hsl
  | cons a rest ih =>
    obtain ⟨h1, h2, h3⟩ := h
    intro sl hsl
    rcases List.mem_cons.mp hsl with hsl | hsl
    · subst hsl
      omega
    · have := ih a.executedTo h3 sl hsl
      omega

theorem chained_adjacent (c : Int) (out : List Slice) (h : Chained c out) :
    ∀ i a b, out[i]? = some a → out[i + 1]? = some b → b.executedFrom = a.executedTo := by
  induction out generalizing c with
  | nil => intro i a b ha; simp at ha
  | cons x rest ih =>
    obtain ⟨_, _, h3⟩ := h
    intro i a b ha hb
    cases i with
    | zero =>
      simp only [List.getElem?_cons_zero, Option.some.injEq] at ha
      subst ha
      simp only [zero_add, List.getElem?_cons_succ] at hb
      cases rest with
      | nil => simp at hb
      | cons y rest2 =>
        simp only [List.getElem?_cons_zero, Option.some.injEq] at hb
        subst hb
        exact h3.1
    | succ j =>
      simp only [List.getElem?_cons_succ] at ha hb
      exact ih x.executedTo h3 j a b ha hb

theorem chained_pairwise (c : Int) (out : List Slice) (h : Chained c out) :
    out.Pairwise (fun a b => a.executedTo ≤ b.executedTo) := by
  induction out generalizing c with
  | nil => exact List.Pairwise.nil
  | cons x rest ih =>
    obtain ⟨_, _, h3⟩ := h
    exact List.pairwise_cons.mpr ⟨chained_end_ge x.executedTo rest h3, ih x.executedTo h3⟩

theorem chained_getLast (c : Int) (out : List Slice) :
    ∀ a, out.getLast? = some a → a.executedTo = endOf c out := by
  induction out generalizing c with
  | nil => intro a ha; simp at ha
  | cons x rest ih =>
    intro a ha
    cases rest with
    | nil =>
      simp only [List.getLast?_singleton, Option.some.injEq] at ha
      subst ha
      rfl
    | cons y rest2 =>
      rw [List.getLast?_cons_cons] at ha
      exact ih x.executedTo a ha

theorem chained_timeline (out : List Slice) (h : Chained 0 out) :
    ContiguousTimeline out (endOf 0 out) := by
  refine ⟨?_, chained_adjacent 0 out h, chained_pairwise 0 out h, chained_getLast 0 out⟩
  intro a ha
  cases out with
  | nil => simp at ha
  | cons x rest =>
    simp only [List.getElem?_cons_zero, Option.some.injEq] at ha
    subst ha
    exact h.1

/-- One iteration appends a slice that starts at the clock and moves its length
from the bursts left in the queue to the clock. -/
theorem rrStep_timeline (quantum : Int) (hquantum : 0 < quantum) (total : Int)
    (s s2 : RRState)
    (h : (∀ t ∈ s.q, 0 ≤ t.burstTime) ∧ Chained 0 s.out ∧ endOf 0 s.out = s.currentTime ∧
      s.currentTime + totalBurst s.q = total)
    (hst : rrStep quantum s = some s2) :
    (∀ t ∈ s2.q, 0 ≤ t.burstTime) ∧ Chained 0 s2.out ∧ endOf 0 s2.out = s2.currentTime ∧
      s2.currentTime + totalBurst s2.q = total := by
  obtain ⟨h1, h2, h3, h4⟩ := h
  refine ⟨rrStep_burst_nonneg quantum s s2 h1 hst, ?_⟩
  cases hq : s.q with
  | nil => rw [rrStep_nil quantum s hq] at hst; simp at hst
  | cons t rest =>
    rw [rrStep_cons quantum s t rest hq, Option.some.injEq] at hst
    subst hst
    have ht : 0 ≤ t.burstTime := h1 t (hq ▸ List.mem_cons_self _ _)
    obtain ⟨h5, h6⟩ := chained_append 0 s.out
      ⟨t.id, s.currentTime, s.currentTime + min quantum t.burstTime⟩ h2 h3.symm
      (by simp only; omega)
    refine ⟨h5, h6, ?_⟩
    rw [hq] at h4
    simp only [totalBurst, List.map_cons, List.sum_cons] at h4 ⊢
    by_cases hr : 0 < t.burstTime - min quantum t.burstTime
    · simp only [hr, if_true, List.map_append, List.map_cons, List.map_nil, List.sum_append,
        List.sum_cons, List.sum_nil]
      omega
    · simp only [hr, if_false]
      omega

/-! ## C17: the round-robin timeline -/

/-- Every iteration prints one slice and takes at most one task off the queue. -/
theorem rrStep_slice_count (quantum : Int) (k : Nat) (s s2 : RRState)
    (h : k ≤ s.out.length + s.q.length) (hst : rrStep quantum s = some s2) :
    k ≤ s2.out.length + s2.q.length := by
  cases hq : s.q with
  | nil => rw [rrStep_nil quantum s hq] at hst; simp at hst
  | cons t rest =>
    rw [rrStep_cons quantum s t rest hq, Option.some.injEq] at hst
    subst hst
    rw [hq] at h
    simp only [List.length_cons, List.length_append, List.length_nil] at h ⊢
    split
    · simp only [List.length_append, List.length_cons, List.length_nil]
      omega
    · omega

/-- C17: for every task list with non-negative burst times and every quantum
`q > 0`, round robin run with a bound of at least `rrFuel tasks` iterations
exits, it prints at least one slice per input task, and its printed timeline is
contiguous and monotone: the first slice starts at 0, every later slice starts
exactly where the previous one ended, slice end times are non-decreasing, and
the timeline ends at the sum of all original burst times, which for a non-empty
task list is the end of the last slice. -/
theorem round_robin_timeline (tasks : List Task) (quantum : Int)
    (hburst : ∀ t ∈ tasks, 0 ≤ t.burstTime) (hquantum : 0 < quantum)
    (fuel : Nat) (hfuel : rrFuel tasks ≤ fuel) :
    ∃ out, roundRobinScheduling tasks quantum fuel = some out ∧
      tasks.length ≤ out.length ∧
      ContiguousTimeline out (totalBurst tasks) ∧
      endOf 0 out = totalBurst tasks ∧
      (tasks ≠ [] → ∃ a, out.getLast? = some a ∧ a.executedTo = totalBurst tasks) := by
  obtain ⟨n, s2, hn, hq, hl⟩ := rrLoop_terminates quantum hquantum fuel (rrInit tasks) hfuel
  have hinv := rrAfter_invariant quantum
    (fun s => (∀ t ∈ s.q, 0 ≤ t.burstTime) ∧ Chained 0 s.out ∧ endOf 0 s.out = s.currentTime ∧
      s.currentTime + totalBurst s.q = totalBurst tasks)
    (rrStep_timeline quantum hquantum (totalBurst tasks)) n (rrInit tasks) s2
    ⟨hburst, trivial, rfl, by simp [rrInit]⟩ hn
  have hcount := rrAfter_invariant quantum
    (fun s => tasks.length ≤ s.out.length + s.q.length)
    (rrStep_slice_count quantum tasks.length) n (rrInit tasks) s2 (by simp [rrInit]) hn
  obtain ⟨_, h2, h3, h4⟩ := hinv
  have hend : endOf 0 s2.out = totalBurst tasks := by
    rw [hq] at h4
    simp only [totalBurst, List.map_nil, List.sum_nil, add_zero] at h4
    rw [h3, h4]
    rfl
  have hlen : tasks.length ≤ s2.out.length := by
    simp only [hq, List.length_nil, add_zero] at hcount
    exact hcount
  have htl : ContiguousTimeline s2.out (totalBurst tasks) := by
    rw [← hend]
    exact chained_timeline s2.out h2
  refine ⟨s2.out, by simp [roundRobinScheduling, hl], hlen, htl, hend, ?_⟩
  intro hne
  have hout : s2.out ≠ [] := by
    intro he
    rw [he] at hlen
    exact hne (List.length_eq_zero.mp (Nat.le_zero.mp hlen))
  obtain ⟨a, ha⟩ := Option.isSome_iff_exists.mp (List.getLast?_isSome.mpr hout)
  exact ⟨a, ha, htl.2.2.2 a ha⟩

/-- Witness for C17: `twoTasks` with quantum 2, whose timeline ends at 8. -/
theorem round_robin_timeline_witness :
    (∀ t ∈ twoTasks, 0 ≤ t.burstTime) ∧ (0 : Int) < 2 ∧ rrFuel twoTasks ≤ 10 ∧
    totalBurst twoTasks = 8 ∧
    ∃ out, roundRobinScheduling twoTasks 2 10 = some out ∧
      twoTasks.length ≤ out.length ∧
      ContiguousTimeline out (totalBurst twoTasks) ∧
      endOf 0 out = totalBurst twoTasks ∧
      (twoTasks ≠ [] → ∃ a, out.getLast? = some a ∧ a.executedTo = totalBurst twoTasks) :=
  ⟨by decide, by decide, by decide, by decide,
    round_robin_timeline twoTasks 2 (by decide) (by decide) 10 (by decide)⟩

/-! ## Helper lemmas: termination of the selection loop -/

theorem priorityFuel_ageReady (c c2 : Int) (l : List Task) :
    priorityFuel (ageReady c l) c2 = priorityFuel l c2 := by
  unfold priorityFuel ageReady
  rw [List.map_map]
  congr 1
  refine List.map_congr_left ?_
  intro t _
  by_cases h : t.arrivalTime ≤ c <;> simp [Function.comp, h]

theorem ageReady_burst_nonneg (c : Int) (l : List Task) (h : ∀ t ∈ l, 0 ≤ t.burstTime) :
    ∀ t ∈ ageReady c l, 0 ≤ t.burstTime := by
  intro u hu
  unfold ageReady at hu
  obtain ⟨t, ht, rfl⟩ := List.mem_map.mp hu
  have := h t ht
  by_cases hc : t.arrivalTime ≤ c <;> simpa [hc] using this

theorem priorityFuel_mono (l : List Task) (c c2 : Int) (h : c ≤ c2) :
    priorityFuel l c2 ≤ priorityFuel l c := by
  induction l with
  | nil => simp [priorityFuel]
  | cons t rest ih =>
    simp only [priorityFuel, List.map_cons, List.sum_cons] at ih ⊢
    omega

theorem priorityFuel_idle (l : List Task) (c : Int) (hne : l ≠ [])
    (h : ∀ t ∈ l, ¬ t.arrivalTime ≤ c) : priorityFuel l (c + 1) < priorityFuel l c := by
  cases l with
  | nil => exact absurd rfl hne
  | cons t rest =>
    have ht := h t (List.mem_cons_self _ _)
    have hrest := priorityFuel_mono rest c (c + 1) (by omega)
    simp only [priorityFuel, List.map_cons, List.sum_cons] at hrest ⊢
    omega

theorem priorityFuel_append_cons (pre : List Task) (t : Task) (post : List Task) (c : Int) :
    priorityFuel (pre ++ post) c < priorityFuel (pre ++ t :: post) c := by
  simp only [priorityFuel, List.map_append, List.map_cons, List.sum_append, List.sum_cons]
  omega

/-- Every iteration is an idle tick, taken when no remaining task is Ready, or a
dispatch; the new state is given in full. -/
theorem priorityStep_full (s s2 : PState) (h : priorityStep s = some s2) :
    (s.tasks ≠ [] ∧ (∀ t ∈ s.tasks, ¬ t.arrivalTime ≤ s.currentTime) ∧
      s2 = { s with currentTime := s.currentTime + 1 }) ∨
    ∃ pre current post, ageReady s.currentTime s.tasks = pre ++ current :: post ∧
      s2 = { tasks := pre ++ post
             currentTime := s.currentTime + current.burstTime
             waitingTimes := s.waitingTimes ++
               [s.currentTime + current.burstTime - current.arrivalTime - current.burstTime]
             turnaroundTimes := s.turnaroundTimes ++
               [s.currentTime + current.burstTime - current.arrivalTime]
             rows := s.rows ++ [⟨current, s.currentTime,
               s.currentTime + current.burstTime - current.arrivalTime - current.burstTime,
               s.currentTime + current.burstTime - current.arrivalTime⟩] } := by
  by_cases hready : ∃ t ∈ s.tasks, t.arrivalTime ≤ s.currentTime
  · right
    obtain ⟨pre, c, post, h1, _, _, h4⟩ := priorityStep_dispatch s hready
    rw [h4, Option.some.injEq] at h
    exact ⟨pre, c, post, h1, h.symm⟩
  · left
    have hne : s.tasks ≠ [] := by
      intro he
      rw [priorityStep_nil s he] at h
      simp at h
    have hnone : ∀ t ∈ s.tasks, ¬ t.arrivalTime ≤ s.currentTime :=
      fun t ht harr => hready ⟨t, ht, harr⟩
    rw [priorityStep_idle s hne hnone, Option.some.injEq] at h
    exact ⟨hne, hnone, h.symm⟩

theorem priorityStep_fuel_decreases (s s2 : PState) (hb : ∀ t ∈ s.tasks, 0 ≤ t.burstTime)
    (h : priorityStep s = some s2) :
    (∀ t ∈ s2.tasks, 0 ≤ t.burstTime) ∧
      priorityFuel s2.tasks s2.currentTime < priorityFuel s.tasks s.currentTime := by
  rcases priorityStep_full s s2 h with ⟨hne, hnone, rfl⟩ | ⟨pre, c, post, h1, rfl⟩
  · exact ⟨hb, priorityFuel_idle s.tasks s.currentTime hne hnone⟩
  · have hage := ageReady_burst_nonneg s.currentTime s.tasks hb
    rw [h1] at hage
    have hc : 0 ≤ c.burstTime := hage c (by simp)
    refine ⟨?_, ?_⟩
    · intro t ht
      simp only at ht
      refine hage t ?_
      rcases List.mem_append.mp ht with ht | ht
      · exact List.mem_append_left _ ht
      · exact List.mem_append_right _ (List.mem_cons_of_mem _ ht)
    · simp only
      calc priorityFuel (pre ++ post) (s.currentTime + c.burstTime)
          ≤ priorityFuel (pre ++ post) s.currentTime :=
            priorityFuel_mono _ _ _ (by omega)
        _ < priorityFuel (pre ++ c :: post) s.currentTime :=
            priorityFuel_append_cons pre c post _
        _ = priorityFuel s.tasks s.currentTime := by
            rw [← h1, priorityFuel_ageReady]

theorem priorityFuel_eq_zero (l : List Task) (c : Int) (h : priorityFuel l c = 0) : l = [] := by
  cases l with
  | nil => rfl
  | cons t rest =>
    simp only [priorityFuel, List.map_cons, List.sum_cons] at h
    omega

/-- With non-negative burst times the bounded selection loop exits once the
bound is at least `priorityFuel`, in a state reached after finitely many
iterations in which no task remains. -/
theorem priorityLoop_terminates :
    ∀ (fuel : Nat) (s : PState), (∀ t ∈ s.tasks, 0 ≤ t.burstTime) →
      priorityFuel s.tasks s.currentTime ≤ fuel →
      ∃ n s2, n ≤ fuel ∧ priorityAfter n s = some s2 ∧ s2.tasks = [] ∧
        priorityLoop fuel s = some s2 := by
  intro fuel
  induction fuel with
  | zero =>
    intro s _ h
    have hq : s.tasks = [] := priorityFuel_eq_zero _ _ (Nat.le_zero.mp h)
    exact ⟨0, s, le_refl _, rfl, hq, by simp [priorityLoop, hq]⟩
  | succ fuel ih =>
    intro s hb h
    cases hst : priorityStep s with
    | none =>
      have hq : s.tasks = [] := by
        by_contra hne
        by_cases hready : ∃ t ∈ s.tasks, t.arrivalTime ≤ s.currentTime
        · obtain ⟨_, _, _, _, _, _, h4⟩ := priorityStep_dispatch s hready
          rw [h4] at hst
          simp at hst
        · rw [priorityStep_idle s hne (fun t ht harr => hready ⟨t, ht, harr⟩)] at hst
          simp at hst
      exact ⟨0, s, Nat.zero_le _, rfl, hq, by simp [priorityLoop, hst]⟩
    | some s1 =>
      obtain ⟨hb1, hlt⟩ := priorityStep_fuel_decreases s s1 hb hst
      obtain ⟨n, s2, hle, hn, hq, hl⟩ := ih s1 hb1 (by omega)
      exact ⟨n + 1, s2, by omega, by simp [priorityAfter, hst, hn], hq,
        by simp [priorityLoop, hst, hl]⟩

theorem priorityFuel_perm (l1 l2 : List Task) (h : l1.Perm l2) (c : Int) :
    priorityFuel l1 c = priorityFuel l2 c := by
  unfold priorityFuel
  exact (h.map _).sum_eq

/-- Both metric vectors follow the dispatch rows, and each row's turnaround
exceeds its waiting time by the burst time. -/
theorem priority_metrics (s0 : PState)
    (h0 : s0.waitingTimes = s0.rows.map (fun d => d.waitingTime) ∧
      s0.turnaroundTimes = s0.rows.map (fun d => d.turnaroundTime) ∧
      ∀ d ∈ s0.rows, d.turnaroundTime - d.waitingTime = d.current.burstTime)
    (n : Nat) (s : PState) (hs : priorityAfter n s0 = some s) :
    s.waitingTimes = s.rows.map (fun d => d.waitingTime) ∧
      s.turnaroundTimes = s.rows.map (fun d => d.turnaroundTime) ∧
      ∀ d ∈ s.rows, d.turnaroundTime - d.waitingTime = d.current.burstTime := by
  refine priorityAfter_invariant
    (fun s => s.waitingTimes = s.rows.map (fun d => d.waitingTime) ∧
      s.turnaroundTimes = s.rows.map (fun d => d.turnaroundTime) ∧
      ∀ d ∈ s.rows, d.turnaroundTime - d.waitingTime = d.current.burstTime) ?_ n s0 s h0 hs
  intro s s2 hP hst
  rcases priorityStep_full s s2 hst with ⟨_, _, rfl⟩ | ⟨pre, c, post, _, rfl⟩
  · exact hP
  · obtain ⟨h1, h2, h3⟩ := hP
    refine ⟨by simp [h1], by simp [h2], ?_⟩
    intro d hd
    rcases List.mem_append.mp hd with hd | hd
    · exact h3 d hd
    · simp only [List.mem_singleton] at hd
      subst hd
      simp only
      omega

theorem originals_fields (past : List Int) (rows : List Dispatch) :
    (originals past rows).map (fun t => (t.id, t.arrivalTime, t.burstTime)) =
      rows.map (fun d => (d.current.id, d.current.arrivalTime, d.current.burstTime)) := by
  induction rows generalizing past with
  | nil => rfl
  | cons d rows ih => simp [originals, withoutAging, ih]

/-! ## C19: the selection loop terminates and dispatches every task once -/

/-- C19: for every sort meeting the `std::sort` guarantee and every task list
with non-negative burst times, the selection loop run with a bound of at least
`priorityFuel tasks 0` iterations exits with no task remaining; the dispatched
ids are a permutation of the input ids (indeed the dispatched id, arrival and
burst triples are a permutation of the input triples); exactly one waiting time
and one turnaround time are recorded per task, in dispatch order; and on every
row `turnaroundTime - waitingTime = burstTime`.  The bound `arrivalTime ≥ 0` of
the claim is not needed. -/
theorem priority_dispatches_each_task_once
    (sort : (Task → Task → Bool) → List Task → List Task) (hsort : StdSort sort)
    (tasks : List Task) (hburst : ∀ t ∈ tasks, 0 ≤ t.burstTime)
    (fuel : Nat) (hfuel : priorityFuel tasks 0 ≤ fuel) :
    ∃ s, prioritySchedulingWithAging sort tasks fuel = some s ∧ s.tasks = [] ∧
      (s.rows.map (fun d => d.current.id)).Perm (tasks.map (fun t => t.id)) ∧
      (s.rows.map (fun d => (d.current.id, d.current.arrivalTime, d.current.burstTime))).Perm
        (tasks.map (fun t => (t.id, t.arrivalTime, t.burstTime))) ∧
      s.waitingTimes.length = tasks.length ∧ s.turnaroundTimes.length = tasks.length ∧
      s.waitingTimes = s.rows.map (fun d => d.waitingTime) ∧
      s.turnaroundTimes = s.rows.map (fun d => d.turnaroundTime) ∧
      ∀ d ∈ s.rows, d.turnaroundTime - d.waitingTime = d.current.burstTime := by
  have hperm := (hsort byArrival byArrival_swo tasks).1
  obtain ⟨n, s, _, hn, hq, hl⟩ := priorityLoop_terminates fuel (priorityInit sort tasks)
    (fun t ht => hburst t (hperm.subset ht))
    (by
      show priorityFuel (sort byArrival tasks) 0 ≤ fuel
      rw [priorityFuel_perm _ _ hperm 0]
      exact hfuel)
  have horig := priority_originals_perm sort hsort tasks n s hn
  rw [hq, List.map_nil, List.append_nil] at horig
  have htriples := horig.map (fun t : Task => (t.id, t.arrivalTime, t.burstTime))
  rw [originals_fields] at htriples
  have hids := htriples.map Prod.fst
  simp only [List.map_map] at hids
  obtain ⟨hw, ht, hrows⟩ := priority_metrics (priorityInit sort tasks)
    ⟨rfl, rfl, by simp [priorityInit]⟩ n s hn
  have hlen : s.rows.length = tasks.length := by
    have := htriples.length_eq
    simpa using this
  refine ⟨s, hl, hq, hids, htriples, ?_, ?_, hw, ht, hrows⟩
  · rw [hw, List.length_map, hlen]
  · rw [ht, List.length_map, hlen]

/-- Witness for C19: `longThenShort` with insertion sort and a bound of three
iterations. -/
theorem priority_dispatches_each_task_once_witness :
    StdSort insertionSortBy ∧ (∀ t ∈ longThenShort, 0 ≤ t.burstTime) ∧
    priorityFuel longThenShort 0 ≤ 3 ∧
    ∃ s, prioritySchedulingWithAging insertionSortBy longThenShort 3 = some s ∧ s.tasks = [] ∧
      (s.rows.map (fun d => d.current.id)).Perm (longThenShort.map (fun t => t.id)) ∧
      (s.rows.map (fun d => (d.current.id, d.current.arrivalTime, d.current.burstTime))).Perm
        (longThenShort.map (fun t => (t.id, t.arrivalTime, t.burstTime))) ∧
      s.waitingTimes.length = longThenShort.length ∧
      s.turnaroundTimes.length = longThenShort.length ∧
      s.waitingTimes = s.rows.map (fun d => d.waitingTime) ∧
      s.turnaroundTimes = s.rows.map (fun d => d.turnaroundTime) ∧
      ∀ d ∈ s.rows, d.turnaroundTime - d.waitingTime = d.current.burstTime :=
  ⟨insertionSortBy_stdSort, by decide, by decide,
    priority_dispatches_each_task_once insertionSortBy insertionSortBy_stdSort longThenShort
      (by decide) 3 (by decide)⟩

/-! ## Helper lemmas: round robin with quantum 0 -/

theorem task_burst_sub_zero (t : Task) : ({ t with burstTime := t.burstTime - 0 } : Task) = t := by
  cases t
  simp

/-- With quantum 0 an iteration puts a head task with positive burst back
unchanged, prints a slice of length 0 for it and leaves the clock alone. -/
theorem rrStep_zero_quantum_positive (s : RRState) (t : Task) (rest : List Task)
    (hq : s.q = t :: rest) (hpos : 0 < t.burstTime) :
    rrStep 0 s =
      some ⟨rest ++ [t], s.currentTime, s.out ++ [⟨t.id, s.currentTime, s.currentTime⟩]⟩ := by
  have hmin : min 0 t.burstTime = 0 := by omega
  rw [rrStep_cons 0 s t rest hq]
  simp [hmin, hpos, task_burst_sub_zero]

theorem rrStep_zero_quantum_keeps_positive (pos : List Task) (s s2 : RRState)
    (hst : rrStep 0 s = some s2)
    (h : (s.q.filter (fun t => decide (0 < t.burstTime))).Perm pos) :
    (s2.q.filter (fun t => decide (0 < t.burstTime))).Perm pos := by
  cases hq : s.q with
  | nil => rw [rrStep_nil 0 s hq] at hst; simp at hst
  | cons t rest =>
    rw [hq] at h
    by_cases hpos : 0 < t.burstTime
    · rw [rrStep_zero_quantum_positive s t rest hq hpos, Option.some.injEq] at hst
      subst hst
      refine List.Perm.trans ?_ h
      simp only [List.filter_append, List.filter_cons, hpos, decide_True, if_true,
        List.filter_nil]
      exact List.perm_append_singleton _ _
    · rw [rrStep_cons 0 s t rest hq, Option.some.injEq] at hst
      subst hst
      have hrem : ¬ 0 < t.burstTime - min 0 t.burstTime := by omega
      simp only [hrem, if_false]
      simpa [List.filter_cons, hpos] using h

theorem rrStep_zero_quantum_clock (s s2 : RRState) (hst : rrStep 0 s = some s2)
    (h : (∀ t ∈ s.q, 0 ≤ t.burstTime) ∧ s.currentTime = 0 ∧
      ∀ sl ∈ s.out, sl.executedFrom = 0 ∧ sl.executedTo = 0) :
    (∀ t ∈ s2.q, 0 ≤ t.burstTime) ∧ s2.currentTime = 0 ∧
      ∀ sl ∈ s2.out, sl.executedFrom = 0 ∧ sl.executedTo = 0 := by
  obtain ⟨h1, h2, h3⟩ := h
  refine ⟨rrStep_burst_nonneg 0 s s2 h1 hst, ?_⟩
  cases hq : s.q with
  | nil => rw [rrStep_nil 0 s hq] at hst; simp at hst
  | cons t rest =>
    have ht : 0 ≤ t.burstTime := h1 t (hq ▸ List.mem_cons_self _ _)
    have hmin : min 0 t.burstTime = 0 := by omega
    rw [rrStep_cons 0 s t rest hq, Option.some.injEq] at hst
    subst hst
    refine ⟨by simp [hmin, h2], ?_⟩
    intro sl hsl
    rcases List.mem_append.mp hsl with hsl | hsl
    · exact h3 sl hsl
    · simp only [List.mem_singleton] at hsl
      subst hsl
      simp [hmin, h2]

theorem rrStep_of_positive (pos : List Task) (hne : pos ≠ []) (s : RRState)
    (h : (s.q.filter (fun t => decide (0 < t.burstTime))).Perm pos) :
    s.q ≠ [] ∧ ∃ s2, rrStep 0 s = some s2 := by
  cases hq : s.q with
  | nil =>
    rw [hq] at h
    exact absurd h.symm.eq_nil hne
  | cons t rest => exact ⟨by simp, _, rrStep_cons 0 s t rest hq⟩

theorem rrAfter_zero_quantum (pos : List Task) (hne : pos ≠ []) :
    ∀ (n : Nat) (s : RRState), (s.q.filter (fun t => decide (0 < t.burstTime))).Perm pos →
      ∃ s2, rrAfter 0 n s = some s2 ∧ s2.q ≠ [] ∧
        (s2.q.filter (fun t => decide (0 < t.burstTime))).Perm pos ∧
        (((∀ t ∈ s.q, 0 ≤ t.burstTime) ∧ s.currentTime = 0 ∧
            ∀ sl ∈ s.out, sl.executedFrom = 0 ∧ sl.executedTo = 0) →
          s2.currentTime = 0 ∧ ∀ sl ∈ s2.out, sl.executedFrom = 0 ∧ sl.executedTo = 0) := by
  intro n
  induction n with
  | zero =>
    intro s h
    exact ⟨s, rfl, (rrStep_of_positive pos hne s h).1, h, fun hc => hc.2⟩
  | succ n ih =>
    intro s h
    obtain ⟨_, s1, hst⟩ := rrStep_of_positive pos hne s h
    obtain ⟨s2, h1, h2, h3, h4⟩ := ih s1 (rrStep_zero_quantum_keeps_positive pos s s1 hst h)
    exact ⟨s2, by simp [rrAfter, hst, h1], h2, h3,
      fun hc => h4 (rrStep_zero_quantum_clock s s1 hst hc)⟩

theorem rrLoop_zero_quantum (pos : List Task) (hne : pos ≠ []) :
    ∀ (fuel : Nat) (s : RRState), (s.q.filter (fun t => decide (0 < t.burstTime))).Perm pos →
      rrLoop 0 fuel s = none := by
  intro fuel
  induction fuel with
  | zero =>
    intro s h
    have := (rrStep_of_positive pos hne s h).1
    simp [rrLoop, this]
  | succ fuel ih =>
    intro s h
    obtain ⟨_, s1, hst⟩ := rrStep_of_positive pos hne s h
    simp [rrLoop, hst, ih s1 (rrStep_zero_quantum_keeps_positive pos s s1 hst h)]

/-! ## C20: round robin with quantum 0 -/

/-- C20 as stated fails for the clock: `negativeBurstTasks` contains a task with
positive burst, and with quantum 0 the first iteration serves the task with
burst -1 by `min(0, -1) = -1`, so the clock is -1 after one iteration. -/
theorem round_robin_zero_quantum_clock_counterexample :
    (∃ t ∈ negativeBurstTasks, 0 < t.burstTime) ∧
    rrAfter 0 1 (rrInit negativeBurstTasks) =
      some ⟨[⟨2, 0, 1, 1, -1, -1⟩], -1, [⟨1, 0, -1⟩]⟩ ∧
    ¬ ∀ n s, rrAfter 0 n (rrInit negativeBurstTasks) = some s → s.currentTime = 0 := by
  refine ⟨by decide, by decide, ?_⟩
  intro h
  have := h 1 ⟨[⟨2, 0, 1, 1, -1, -1⟩], -1, [⟨1, 0, -1⟩]⟩ (by decide)
  exact absurd this (by decide)

/-- C20 (amended): for quantum 0 and every task list containing a task with
positive burst, the round-robin loop never exits: the bounded run fails for
every bound, and after every number of iterations the queue is non-empty and
holds exactly the input tasks with positive burst, unchanged; a head task with
positive burst gets a slice of length 0 and is re-queued unchanged; and when no
burst time is negative, the clock is still 0 and every slice printed so far is
`[0,0)`. -/
theorem round_robin_zero_quantum_never_exits (tasks : List Task)
    (hpos : ∃ t ∈ tasks, 0 < t.burstTime) :
    (∀ fuel, roundRobinScheduling tasks 0 fuel = none) ∧
    (∀ n, ∃ s, rrAfter 0 n (rrInit tasks) = some s ∧ s.q ≠ [] ∧
      (s.q.filter (fun t => decide (0 < t.burstTime))).Perm
        (tasks.filter (fun t => decide (0 < t.burstTime))) ∧
      ((∀ t ∈ tasks, 0 ≤ t.burstTime) →
        s.currentTime = 0 ∧ ∀ sl ∈ s.out, sl.executedFrom = 0 ∧ sl.executedTo = 0)) ∧
    ∀ (s : RRState) t rest, s.q = t :: rest → 0 < t.burstTime →
      rrStep 0 s =
        some ⟨rest ++ [t], s.currentTime, s.out ++ [⟨t.id, s.currentTime, s.currentTime⟩]⟩ := by
  obtain ⟨t0, ht0, hb0⟩ := hpos
  have hne : tasks.filter (fun t => decide (0 < t.burstTime)) ≠ [] :=
    List.ne_nil_of_mem (List.mem_filter.mpr ⟨ht0, by simpa using hb0⟩)
  refine ⟨?_, ?_, fun s t rest hq hp => rrStep_zero_quantum_positive s t rest hq hp⟩
  · intro fuel
    simp [roundRobinScheduling, rrLoop_zero_quantum _ hne fuel (rrInit tasks) (List.Perm.refl _)]
  · intro n
    obtain ⟨s, h1, h2, h3, h4⟩ :=
      rrAfter_zero_quantum _ hne n (rrInit tasks) (List.Perm.refl _)
    exact ⟨s, h1, h2, h3, fun hb => h4 ⟨hb, rfl, by simp [rrInit]⟩⟩

/-- Witness for C20 (amended): `twoTasks` with quantum 0. -/
theorem round_robin_zero_quantum_never_exits_witness :
    (∃ t ∈ twoTasks, 0 < t.burstTime) ∧
    rrAfter 0 3 (rrInit twoTasks) = some twoTasksZeroQuantumAfter3 ∧
    (∀ fuel, roundRobinScheduling twoTasks 0 fuel = none) ∧
    (∀ n, ∃ s, rrAfter 0 n (rrInit twoTasks) = some s ∧ s.q ≠ [] ∧
      (s.q.filter (fun t => decide (0 < t.burstTime))).Perm
        (twoTasks.filter (fun t => decide (0 < t.burstTime))) ∧
      ((∀ t ∈ twoTasks, 0 ≤ t.burstTime) →
        s.currentTime = 0 ∧ ∀ sl ∈ s.out, sl.executedFrom = 0 ∧ sl.executedTo = 0)) ∧
    ∀ (s : RRState) t rest, s.q = t :: rest → 0 < t.burstTime →
      rrStep 0 s =
        some ⟨rest ++ [t], s.currentTime, s.out ++ [⟨t.id, s.currentTime, s.currentTime⟩]⟩ :=
  ⟨by decide, by decide, round_robin_zero_quantum_never_exits twoTasks (by decide)⟩

end Scheduler
